import Mathlib

/-!
Verification of the Study Schedule Planning Engine of the `editaliza` server
(`src/server.js`). Days are modelled as natural numbers; day `d` has weekday
`d % 7` with `0` = Sunday and `6` = Saturday, matching JavaScript `getDay()`.
Study hours may be fractional, so they are rationals. All definitions are
transcribed from the route handlers `POST /plans/:planId/generate`,
`GET /plans/:planId/replan-preview` and `POST /plans/:planId/replan`.
-/

namespace Editaliza

/-- Parameters of one generation run: the plan settings read by the
`generate` handler (`study_hours_per_day`, `session_duration_minutes`,
`exam_date`, `has_essay`) and the run's `today`. -/
structure GenParams where
  hours : ℕ → ℚ
  dur : ℕ
  today : ℕ
  examDate : ℕ
  hasEssay : Bool

/-- `Math.floor((study_hours_per_day[dayOfWeek] * 60) / sessionDuration)`:
the per-date session capacity used by `getAvailableDates` (server.js:643). -/
def maxSessionsOn (P : GenParams) (d : ℕ) : ℕ :=
  (⌊P.hours (d % 7) * 60 / (P.dur : ℚ)⌋).toNat

/-- One entry produced by `getAvailableDates` (server.js:640-644). -/
structure DateInfo where
  date : ℕ
  dayOfWeek : ℕ
  maxSessions : ℕ
deriving DecidableEq, Repr

/-- `getAvailableDates(startDate, endDate, weekdayOnly)` (server.js:627-650):
walks the dates from `s` to `e` inclusive, skipping Saturday/Sunday when
`weekdayOnly`, keeping dates whose weekday hour allocation is positive. -/
def getAvailableDates (P : GenParams) (s e : ℕ) (weekdayOnly : Bool) : List DateInfo :=
  ((List.range (e + 1 - s)).map (s + ·)).filterMap fun d =>
    if weekdayOnly = true ∧ (d % 7 = 0 ∨ d % 7 = 6) then none
    else if 0 < P.hours (d % 7) then
      some ⟨d, d % 7, maxSessionsOn P d⟩
    else none

/-- Session types emitted by the generation run (server.js session_type
strings: 'Novo Tópico', 'Revisão kD', 'Redação', 'Simulado Direcionado',
'Simulado Completo'). -/
inductive SType where
  | novoTopico
  | revisao (k : ℕ)
  | redacao
  | simuladoDirecionado
  | simuladoCompleto
deriving DecidableEq, Repr

/-- A provisional session in the Agenda Accumulator. -/
structure Session where
  topicId : Option ℕ
  sType : SType
  date : ℕ
deriving DecidableEq, Repr

/-- The Agenda Accumulator: the run's provisional sessions (server.js:652). -/
abbrev Agenda := List Session

/-- Number of sessions the agenda holds on date `d`
(`agenda.get(dateStr)?.length || 0`). -/
def agCount (ag : Agenda) (d : ℕ) : ℕ :=
  (ag.filter (fun s => s.date == d)).length

/-- `addSessionToAgenda` (server.js:653-659): appends without checking. -/
def addSessionToAgenda (ag : Agenda) (s : Session) : Agenda := ag ++ [s]

/-- `findNextAvailableSlot(startDate, isWeekdayOnly)` (server.js:673-681). -/
def findNextAvailableSlot (P : GenParams) (ag : Agenda) (startD : ℕ)
    (weekdayOnly : Bool) : Option ℕ :=
  ((getAvailableDates P startD P.examDate weekdayOnly).find?
    (fun di => agCount ag di.date < di.maxSessions)).map (·.date)

/-- `getNextSaturdayForReview(date)` (server.js:683-690). -/
def getNextSaturdayForReview (P : GenParams) (ag : Agenda) (d : ℕ) : Option ℕ :=
  (((getAvailableDates P d P.examDate false).filter (fun di => di.dayOfWeek == 6)).find?
    (fun di => agCount ag di.date < di.maxSessions)).map (·.date)

/-- The essay loop (server.js:661-671): one 'Redação' session on every
available Sunday, added with no capacity check. -/
def essayPhase (P : GenParams) (ag : Agenda) : Agenda :=
  if P.hasEssay then
    ((getAvailableDates P P.today P.examDate false).filter
        (fun di => di.dayOfWeek == 0)).foldl
      (fun a di => addSessionToAgenda a ⟨none, .redacao, di.date⟩) ag
  else ag

/-- A completed topic as returned by the completed-topics query
(server.js:692-699): `status = 'Concluído' AND completion_date IS NOT NULL`. -/
structure CompletedTopic where
  id : ℕ
  completionDate : ℕ
deriving DecidableEq, Repr

/-- The three spaced-repetition offsets `[7, 14, 28]` (server.js:703,735). -/
def offsets : List ℕ := [7, 14, 28]

/-- One iteration of the completed-topic review loop (server.js:701-713):
guard `today ≤ target ≤ examDate`, then place a 'Revisão kD' session on the
next available Saturday, silently dropping the review when none exists. -/
def completedReviewStep (P : GenParams) (t : CompletedTopic) (k : ℕ)
    (ag : Agenda) : Agenda :=
  let target := t.completionDate + k
  if P.today ≤ target ∧ target ≤ P.examDate then
    match getNextSaturdayForReview P ag target with
    | some s => addSessionToAgenda ag ⟨some t.id, .revisao k, s⟩
    | none => ag
  else ag

/-- The completed-topic review loop over all completed topics and offsets. -/
def completedReviewsPhase (P : GenParams) (ts : List CompletedTopic)
    (ag : Agenda) : Agenda :=
  ts.foldl (fun a t => offsets.foldl (fun a2 k => completedReviewStep P t k a2) a) ag

/-- One cascade review for a newly introduced topic (server.js:735-744):
anchored at the study day, guarded only by `target ≤ examDate`. -/
def cascadeReviewStep (P : GenParams) (tid : ℕ) (studyDay : ℕ) (k : ℕ)
    (ag : Agenda) : Agenda :=
  let target := studyDay + k
  if target ≤ P.examDate then
    match getNextSaturdayForReview P ag target with
    | some s => addSessionToAgenda ag ⟨some tid, .revisao k, s⟩
    | none => ag
  else ag

/-- A topic row of the all-topics query (server.js:605-614): id, subject
name, subject priority weight, and whether `status = 'Concluído'`. -/
structure Topic where
  id : ℕ
  subjectName : String
  priority : ℕ
  done : Bool
deriving DecidableEq, Repr

/-- The weighted working list (server.js:716): each pending topic repeated
`priority` times. -/
def weightedTopics (pending : List Topic) : List Topic :=
  pending.flatMap (fun t => List.replicate t.priority t)

/-- De-duplication preserving first occurrence of each topic id
(server.js:721, `new Map(weightedTopics.map(item => [item.id, item]))`). -/
def dedupById : List Topic → List Topic
  | [] => []
  | t :: rest => t :: dedupById (rest.filter (fun u => u.id != t.id))
termination_by l => l.length
decreasing_by
  simpa using Nat.lt_succ_of_le (List.length_filter_le _ rest)

/-- The new-topic distribution loop (server.js:723-745): walk the ordered
topic list, placing a 'Novo Tópico' session at the next weekday slot and
immediately scheduling its review cascade; stop at the first failure.
Returns the agenda, the last new-topic date, and the unprocessed suffix. -/
def newTopicLoop (P : GenParams) :
    List Topic → ℕ → Option ℕ → Agenda → Agenda × Option ℕ × List Topic
  | [], _, last, ag => (ag, last, [])
  | t :: rest, cursor, last, ag =>
    match findNextAvailableSlot P ag cursor true with
    | none => (ag, last, t :: rest)
    | some d =>
      let ag1 := addSessionToAgenda ag ⟨some t.id, .novoTopico, d⟩
      let ag2 := offsets.foldl (fun a k => cascadeReviewStep P t.id d k a) ag1
      newTopicLoop P rest d (some d) ag2

/-- De-duplication of subject names preserving first occurrence
(the JS `Map` insertion order in server.js:771-782). -/
def dedupNames : List String → List String
  | [] => []
  | s :: rest => s :: dedupNames (rest.filter (fun u => u != s))
termination_by l => l.length
decreasing_by
  simpa using Nat.lt_succ_of_le (List.length_filter_le _ rest)

/-- Completed-topic count of one subject (server.js:773-782). -/
def completedCountFor (allTopics : List Topic) (name : String) : ℕ :=
  (allTopics.filter (fun t => t.subjectName == name && t.done)).length

/-- Subjects with at least 2 completed topics, most completed first
(server.js:784-786). -/
def subjectsReadyForSim (allTopics : List Topic) : List String :=
  ((dedupNames (allTopics.map (·.subjectName))).filter
      (fun name => 2 ≤ completedCountFor allTopics name)).insertionSort
    (fun a b => completedCountFor allTopics b ≤ completedCountFor allTopics a)

/-- Number of directed-mock topic groups: completed topics in slices of 4
(server.js:793-796). -/
def numGroups (n : ℕ) : ℕ := (n + 3) / 4

/-- Directed-mock placement for one subject (server.js:798-816): one
'Simulado Direcionado' per group, each at the next available slot, the
cursor advancing 3 days past the chosen date; stop on exhaustion. -/
def placeDirectedGroups (P : GenParams) : ℕ → ℕ → Agenda → Agenda × ℕ
  | 0, cursor, ag => (ag, cursor)
  | g + 1, cursor, ag =>
    match findNextAvailableSlot P ag cursor false with
    | none => (ag, cursor)
    | some d =>
      placeDirectedGroups P g (d + 3) (addSessionToAgenda ag ⟨none, .simuladoDirecionado, d⟩)

/-- The directed-mock phase (server.js:770-818): the cursor starts at the
maintenance start date and threads across subjects. -/
def directedMockPhase (P : GenParams) (allTopics : List Topic) (start : ℕ)
    (ag : Agenda) : Agenda :=
  ((subjectsReadyForSim allTopics).foldl
    (fun (acc : Agenda × ℕ) name =>
      placeDirectedGroups P (numGroups (completedCountFor allTopics name)) acc.2 acc.1)
    (ag, start)).1

/-- The basic full-mock placement (server.js:820-833): one
'Simulado Completo' at the first available slot on/after
`maintenanceStart + 7`. -/
def basicMockPhase (P : GenParams) (maintenanceStart : ℕ) (ag : Agenda) : Agenda :=
  match findNextAvailableSlot P ag (maintenanceStart + 7) false with
  | some d => addSessionToAgenda ag ⟨none, .simuladoCompleto, d⟩
  | none => ag

/-- The recurring full-mock loop (server.js:835-861): up to 20
'Simulado Completo' sessions, cursor advancing 3 days past each. -/
def recurringMockLoop (P : GenParams) : ℕ → ℕ → Agenda → Agenda
  | 0, _, ag => ag
  | n + 1, cursor, ag =>
    match findNextAvailableSlot P ag cursor false with
    | none => ag
    | some d =>
      recurringMockLoop P n (d + 3) (addSessionToAgenda ag ⟨none, .simuladoCompleto, d⟩)

/-- The inputs of one generation run: the plan parameters, the two topic
queries, and the Fisher–Yates-shuffled weighted list (randomness is
modelled by taking the shuffled list as an input). -/
structure GenInput where
  P : GenParams
  allTopics : List Topic
  completedTopics : List CompletedTopic
  shuffled : List Topic

/-- `pendingTopics` (server.js:715): topics not marked 'Concluído'. -/
def pendingTopics (inp : GenInput) : List Topic :=
  inp.allTopics.filter (fun t => !t.done)

/-- Agenda, last new-topic date and unprocessed suffix after the essay,
completed-review and new-topic phases (server.js:661-745). -/
def genNewTopicResult (inp : GenInput) : Agenda × Option ℕ × List Topic :=
  newTopicLoop inp.P (dedupById inp.shuffled) inp.P.today none
    (completedReviewsPhase inp.P inp.completedTopics (essayPhase inp.P []))

/-- `maintenanceStartDate` (server.js:747-748): last new-topic date (or
today) plus one day. -/
def genMaintenanceStart (inp : GenInput) : ℕ :=
  (match (genNewTopicResult inp).2.1 with
   | some d => d
   | none => inp.P.today) + 1

/-- The gate shared by the three mock phases (server.js:770,821,836):
no pending topics and completed coverage of at least 95%. -/
def genSimGate (inp : GenInput) : Bool :=
  decide (pendingTopics inp = []) &&
  decide ((95 : ℚ) / 100 ≤ (inp.completedTopics.length : ℚ) / (inp.allTopics.length : ℚ))

/-- Agenda after the directed-mock phase (or unchanged when its gate is
closed). The outer `if` is the `!hasPendingNewTopics` check
(server.js:752). -/
def genStage3 (inp : GenInput) : Agenda :=
  if pendingTopics inp = [] ∧ genSimGate inp = true then
    directedMockPhase inp.P inp.allTopics (genMaintenanceStart inp) (genNewTopicResult inp).1
  else (genNewTopicResult inp).1

/-- Agenda after the basic full-mock phase. -/
def genStage4 (inp : GenInput) : Agenda :=
  if pendingTopics inp = [] ∧ genSimGate inp = true then
    basicMockPhase inp.P (genMaintenanceStart inp) (genStage3 inp)
  else genStage3 inp

/-- The full Agenda Accumulator of one generation run (server.js:661-864). -/
def buildAgenda (inp : GenInput) : Agenda :=
  if pendingTopics inp = [] ∧ genSimGate inp = true then
    recurringMockLoop inp.P 20 (genMaintenanceStart inp + 5) (genStage4 inp)
  else genStage4 inp

/-- JavaScript `parseInt(h, 10) || 0` on a decimal number: truncation
toward zero (server.js:597). -/
def jsTrunc (q : ℚ) : ℤ := if 0 ≤ q then ⌊q⌋ else ⌈q⌉

/-- `totalWeeklyHours` (server.js:597): the sum of the integer-truncated
values of the 7 weekday entries. -/
def totalWeeklyHours (hours : ℕ → ℚ) : ℤ :=
  ((List.range 7).map (fun i => jsTrunc (hours i))).sum

/-- Outcome of the `generate` route: 404, the 400 configuration error, the
no-topics 200 response, or the success response with its session count. -/
inductive GenResult where
  | notFound
  | configError
  | noTopics
  | success (sessionsCreated : ℕ)
deriving DecidableEq, Repr

/-- Persistent state touched by `generate` for one plan: whether the plan
row exists for this user, and the plan's stored sessions. -/
structure GenStore where
  planFound : Bool
  sessions : List Session
deriving DecidableEq, Repr

/-- The `generate` route handler (server.js:578-905): 404 rollback when
the plan is missing; 400 rollback when the truncated weekly-hours sum is
zero; otherwise DELETE all stored sessions, COMMIT early when there are no
topics, else build and persist the agenda. -/
def generateEndpoint (st : GenStore) (inp : GenInput) : GenStore × GenResult :=
  if st.planFound = false then (st, .notFound)
  else if totalWeeklyHours inp.P.hours = 0 then (st, .configError)
  else
    let st1 : GenStore := { st with sessions := [] }
    if inp.allTopics = [] then (st1, .noTopics)
    else
      let ag := buildAgenda inp
      ({ st1 with sessions := ag }, .success ag.length)

/-! ## The replan endpoints (overdue redistribution) -/

/-- A stored `study_sessions` row as used by the replan endpoints:
id, session_date, and whether `status = 'Pendente'`. -/
structure RSession where
  id : ℕ
  date : ℕ
  pending : Bool
deriving DecidableEq, Repr

/-- Plan state read by the replan endpoints. -/
structure RStore where
  sessions : List RSession
  postponement : ℕ
deriving DecidableEq, Repr

/-- Plan settings used by the replan endpoints. -/
structure RParams where
  hours : ℕ → ℚ
  dur : ℕ
  today : ℕ
  examDate : ℕ

/-- The `ORDER BY session_date, id` ordering of the overdue query
(server.js:930,1029). -/
abbrev overdueLe (a b : RSession) : Prop :=
  a.date < b.date ∨ (a.date = b.date ∧ a.id ≤ b.id)

/-- Overdue sessions: pending, dated before today, ordered by
(session_date, id) (server.js:930,1029). -/
def overdueSessions (P : RParams) (st : RStore) : List RSession :=
  (st.sessions.filter (fun s => s.pending && decide (s.date < P.today))).insertionSort overdueLe

/-- Sessions stored on date `d` (the per-date COUNT queries). -/
def countOnDate (sessions : List RSession) (d : ℕ) : ℕ :=
  (sessions.filter (fun s => s.date == d)).length

/-- The preview's session-count cache (server.js:943-957): per-date counts
of all sessions dated between today and the exam date; absent keys read 0. -/
def initialCounts (P : RParams) (st : RStore) : ℕ → ℕ := fun d =>
  if P.today ≤ d ∧ d ≤ P.examDate then countOnDate st.sessions d else 0

/-- The preview's forward scan (server.js:963-996): from `d`, the first
date up to the exam whose weekday hours are positive and whose used
minutes plus one more session duration fit the minute budget. -/
def previewFindSlot (P : RParams) (counts : ℕ → ℕ) (d : ℕ) : Option ℕ :=
  if P.examDate < d then none
  else if 0 < P.hours (d % 7) ∧
      ((counts d : ℚ) * P.dur + P.dur ≤ P.hours (d % 7) * 60) then some d
  else previewFindSlot P counts (d + 1)
termination_by P.examDate + 1 - d

/-- One line of the preview response (server.js:977-989). -/
structure PreviewEntry where
  sessionId : ℕ
  originalDate : ℕ
  newDate : ℕ
deriving DecidableEq, Repr

/-- The preview simulation loop (server.js:960-997): for each overdue
session in order, find a slot, record the entry and bump the cached count;
the cursor stays on the chosen date. When no slot exists the cursor has
run past the exam date and the session gets no entry. -/
def previewLoop (P : RParams) : List RSession → (ℕ → ℕ) → ℕ → List PreviewEntry
  | [], _, _ => []
  | s :: rest, counts, cur =>
    match previewFindSlot P counts cur with
    | some d =>
      ⟨s.id, s.date, d⟩ :: previewLoop P rest (fun x => if x = d then counts x + 1 else counts x) d
    | none => previewLoop P rest counts (P.examDate + 1)

/-- The preview response (server.js:999-1008): `replanPreview` is the
computed list truncated to its first 5 entries. -/
structure PreviewResult where
  hasOverdue : Bool
  count : ℕ
  replanPreview : List PreviewEntry
  totalToReplan : ℕ
deriving DecidableEq, Repr

/-- The full preview entry list computed by the handler. -/
def previewEntries (P : RParams) (st : RStore) : List PreviewEntry :=
  previewLoop P (overdueSessions P st) (initialCounts P st) P.today

/-- The `replan-preview` route (server.js:919-1015). The handler runs only
SELECT statements, so the store is returned unchanged. -/
def previewEndpoint (P : RParams) (st : RStore) : RStore × PreviewResult :=
  let ov := overdueSessions P st
  if ov.isEmpty then (st, ⟨false, 0, [], 0⟩)
  else
    let entries := previewEntries P st
    (st, ⟨true, ov.length, entries.take 5, entries.length⟩)

/-- The commit path's `findNextAvailableSlot` (server.js:1039-1062):
Sundays are skipped unconditionally; a date qualifies when its minute
budget is positive and the live session count is below
`floor(totalMinutes / sessionDuration)`. -/
def commitFindSlot (P : RParams) (sessions : List RSession) (d : ℕ) : Option ℕ :=
  if P.examDate < d then none
  else if d % 7 = 0 then commitFindSlot P sessions (d + 1)
  else if 0 < P.hours (d % 7) * 60 ∧
      countOnDate sessions d < (⌊P.hours (d % 7) * 60 / (P.dur : ℚ)⌋).toNat then some d
  else commitFindSlot P sessions (d + 1)
termination_by P.examDate + 1 - d

/-- `UPDATE study_sessions SET session_date = ? WHERE id = ?`. -/
def setSessionDate (sessions : List RSession) (sid d : ℕ) : List RSession :=
  sessions.map (fun s => if s.id = sid then { s with date := d } else s)

/-- The commit loop (server.js:1066-1076): move each overdue session to
the next slot, the cursor resuming at the chosen date; break entirely when
no slot remains. -/
def commitLoop (P : RParams) :
    List RSession → ℕ → List RSession → List RSession
  | [], _, sessions => sessions
  | s :: rest, cur, sessions =>
    match commitFindSlot P sessions cur with
    | none => sessions
    | some d => commitLoop P rest d (setSessionDate sessions s.id d)

/-- The `replan` route (server.js:1018-1089): no-op without overdue
sessions; otherwise run the commit loop from today and increment the
postponement counter by exactly 1. -/
def commitEndpoint (P : RParams) (st : RStore) : RStore :=
  let ov := overdueSessions P st
  if ov.isEmpty then st
  else
    { sessions := commitLoop P ov P.today st.sessions,
      postponement := st.postponement + 1 }

/-! ## Auxiliary definitions used by the statements -/

/-- The one uncapacity-checked essay session a Sunday can receive. -/
def essayBump (P : GenParams) (d : ℕ) : ℕ :=
  if P.hasEssay = true ∧ d % 7 = 0 then 1 else 0

/-- Sessions of the agenda that introduce topic `tid`. -/
def countNewTopicFor (ag : Agenda) (tid : ℕ) : ℕ :=
  (ag.filter (fun s => s.topicId == some tid && s.sType == SType.novoTopico)).length

/-- The 'Revisão kD' sessions of the agenda bound to topic `tid`. -/
def reviewSessionsFor (ag : Agenda) (tid k : ℕ) : List Session :=
  ag.filter (fun s => s.topicId == some tid && s.sType == SType.revisao k)

/-- Agenda state just before the completed-review iteration of topic `t`
at the offset following `ks1`, when the completed list starts with `ts1`
followed by `t` (the loop processes topics and offsets in order). -/
def reviewAgendaBefore (inp : GenInput) (ts1 : List CompletedTopic)
    (t : CompletedTopic) (ks1 : List ℕ) : Agenda :=
  ks1.foldl (fun a k => completedReviewStep inp.P t k a)
    (completedReviewsPhase inp.P ts1 (essayPhase inp.P []))

/-- `f` only appends sessions and each appended session satisfies `Q`. -/
def AddsOnly (f : Agenda → Agenda) (Q : Session → Prop) : Prop :=
  ∀ ag, ∃ out, f ag = ag ++ out ∧ ∀ s ∈ out, Q s

/-- `f` never pushes a date's session count above its capacity. -/
def CapBounded (P : GenParams) (f : Agenda → Agenda) : Prop :=
  ∀ ag d, agCount (f ag) d ≤ max (agCount ag d) (maxSessionsOn P d)

/-! ## Concrete inputs for counterexamples and witnesses -/

/-- One weekly hour, on Sunday only. -/
def hoursSundayOnly : ℕ → ℚ := fun d => if d = 0 then 1 else 0

/-- Half a weekly hour, on Sunday only. -/
def hoursHalfSunday : ℕ → ℚ := fun d => if d = 0 then 1 / 2 else 0

/-- Essay plan with 1 Sunday hour, 240-minute sessions, exam 6 days out:
Sunday capacity is `floor(60/240) = 0` yet the essay loop fills it. -/
def inpC1 : GenInput :=
  ⟨⟨hoursSundayOnly, 240, 0, 6, true⟩, [⟨1, "Mat", 1, false⟩], [], [⟨1, "Mat", 1, false⟩]⟩

/-- Plan whose only study hours are the fractional half hour on Sunday. -/
def inpC3 : GenInput :=
  ⟨⟨hoursHalfSunday, 50, 0, 6, false⟩, [⟨1, "Mat", 1, false⟩], [], [⟨1, "Mat", 1, false⟩]⟩

/-- A store with one previously generated session. -/
def stC3 : GenStore := ⟨true, [⟨none, SType.novoTopico, 3⟩]⟩

/-- A plan with all seven hour entries zero. -/
def inpZeroHours : GenInput := ⟨⟨fun _ => 0, 50, 0, 6, false⟩, [], [], []⟩

/-- A plan with every hour entry 1 and no topics at all. -/
def inpC10 : GenInput := ⟨⟨fun _ => 1, 50, 0, 6, false⟩, [], [], []⟩

/-- One single topic, already completed: the simulation phase runs with
only 1 completed topic in total. -/
def inpC6 : GenInput :=
  ⟨⟨fun _ => 1, 50, 50, 60, false⟩, [⟨1, "Mat", 3, true⟩], [⟨1, 1⟩], []⟩

/-- One completed topic whose 7-day review target falls past the exam. -/
def inpC4 : GenInput :=
  ⟨⟨fun _ => 1, 50, 0, 30, false⟩, [⟨1, "Mat", 1, true⟩], [⟨1, 40⟩], []⟩

/-- One pending topic of priority 1. -/
def inpC8 : GenInput :=
  ⟨⟨fun _ => 1, 50, 0, 30, false⟩, [⟨1, "Mat", 1, false⟩], [], [⟨1, "Mat", 1, false⟩]⟩

/-- Replan settings: every day has 1 hour, Sunday included; today is day 7
(a Sunday), the exam day 13. -/
def prC2 : RParams := ⟨fun _ => 1, 50, 7, 13⟩

/-- One pending session dated before today. -/
def stC2 : RStore := ⟨[⟨1, 3, true⟩], 0⟩

/-- Replan settings for the preview-truncation run: today day 8, exam 30,
100 hours per day so every placement lands on day 8. -/
def prC7 : RParams := ⟨fun _ => 100, 50, 8, 30⟩

/-- Six overdue pending sessions. -/
def stC7 : RStore :=
  ⟨[⟨1, 1, true⟩, ⟨2, 2, true⟩, ⟨3, 3, true⟩, ⟨4, 4, true⟩, ⟨5, 5, true⟩, ⟨6, 6, true⟩], 0⟩

/-! ## Helper lemmas -/

theorem mem_getAvailableDates {P : GenParams} {s e : ℕ} {wo : Bool} {di : DateInfo} :
    di ∈ getAvailableDates P s e wo ↔
      s ≤ di.date ∧ di.date ≤ e ∧
      (wo = true → ¬(di.date % 7 = 0 ∨ di.date % 7 = 6)) ∧
      0 < P.hours (di.date % 7) ∧
      di.dayOfWeek = di.date % 7 ∧ di.maxSessions = maxSessionsOn P di.date := by
  unfold getAvailableDates
  rw [List.mem_filterMap]
  constructor
  · rintro ⟨a, ha, hf⟩
    simp only [List.mem_map, List.mem_range] at ha
    obtain ⟨i, hi, rfl⟩ := ha
    by_cases hc1 : wo = true ∧ ((s + i) % 7 = 0 ∨ (s + i) % 7 = 6)
    · rw [if_pos hc1] at hf
      simp at hf
    · rw [if_neg hc1] at hf
      by_cases hc2 : 0 < P.hours ((s + i) % 7)
      · rw [if_pos hc2] at hf
        obtain rfl := Option.some_inj.mp hf
        dsimp only
        exact ⟨Nat.le_add_right _ _, by omega, fun hw hd => hc1 ⟨hw, hd⟩, hc2, rfl, rfl⟩
      · rw [if_neg hc2] at hf
        simp at hf
  · rintro ⟨h1, h2, h3, h4, h5, h6⟩
    refine ⟨di.date, ?_, ?_⟩
    · simp only [List.mem_map, List.mem_range]
      exact ⟨di.date - s, by omega, by omega⟩
    · rw [if_neg, if_pos h4]
      · cases di
        simp only at h5 h6 ⊢
        rw [h5, h6]
      · rintro ⟨hw, hd⟩
        exact h3 hw hd

theorem pairwise_map_date_filterMap {g : ℕ → Option DateInfo}
    (hg : ∀ a b, g a = some b → b.date = a) :
    ∀ {l : List ℕ}, l.Pairwise (· < ·) →
      ((l.filterMap g).map (·.date)).Pairwise (· < ·) := by
  intro l
  induction l with
  | nil => simp
  | cons a l ih =>
    intro hp
    rw [List.pairwise_cons] at hp
    rw [List.filterMap_cons]
    cases hga : g a with
    | none => exact ih hp.2
    | some b =>
      rw [List.map_cons, List.pairwise_cons]
      refine ⟨?_, ih hp.2⟩
      intro c hc
      simp only [List.mem_map] at hc
      obtain ⟨dc, hdc, rfl⟩ := hc
      rw [List.mem_filterMap] at hdc
      obtain ⟨x, hx, hfx⟩ := hdc
      rw [hg a b hga, hg x dc hfx]
      exact hp.1 x hx

theorem dates_pairwise_getAvailableDates (P : GenParams) (s e : ℕ) (wo : Bool) :
    ((getAvailableDates P s e wo).map (·.date)).Pairwise (· < ·) := by
  unfold getAvailableDates
  refine pairwise_map_date_filterMap ?_ ?_
  · intro a b h
    by_cases hc1 : wo = true ∧ (a % 7 = 0 ∨ a % 7 = 6)
    · rw [if_pos hc1] at h
      simp at h
    · rw [if_neg hc1] at h
      by_cases hc2 : 0 < P.hours (a % 7)
      · rw [if_pos hc2] at h
        rw [← Option.some_inj.mp h]
      · rw [if_neg hc2] at h
        simp at h
  · refine List.Pairwise.map _ (fun a b h => ?_) (List.pairwise_lt_range _)
    omega

theorem find?_eq_some_split {α : Type} {p : α → Bool} {l : List α} {b : α}
    (h : l.find? p = some b) :
    p b = true ∧ ∃ l1 l2, l = l1 ++ b :: l2 ∧ ∀ a ∈ l1, p a = false := by
  induction l with
  | nil => simp [List.find?] at h
  | cons x xs ih =>
    rw [List.find?] at h
    rcases hp : p x with _ | _
    · rw [hp] at h
      simp only at h
      obtain ⟨h1, l1, l2, rfl, h3⟩ := ih h
      exact ⟨h1, x :: l1, l2, rfl, by simpa [hp] using h3⟩
    · rw [hp] at h
      simp only [Option.some.injEq] at h
      subst h
      exact ⟨hp, [], xs, rfl, by simp⟩

theorem findNextAvailableSlot_spec {P : GenParams} {ag : Agenda} {s : ℕ} {wo : Bool} {d : ℕ}
    (h : findNextAvailableSlot P ag s wo = some d) :
    s ≤ d ∧ d ≤ P.examDate ∧ (wo = true → ¬(d % 7 = 0 ∨ d % 7 = 6)) ∧
    0 < P.hours (d % 7) ∧ agCount ag d < maxSessionsOn P d ∧
    (∀ d', s ≤ d' → d' < d → (wo = true → ¬(d' % 7 = 0 ∨ d' % 7 = 6)) →
      0 < P.hours (d' % 7) → maxSessionsOn P d' ≤ agCount ag d') := by
  unfold findNextAvailableSlot at h
  rw [Option.map_eq_some'] at h
  obtain ⟨di, hf, rfl⟩ := h
  obtain ⟨hp, l1, l2, hsplit, hl1⟩ := find?_eq_some_split hf
  rw [decide_eq_true_iff] at hp
  have hmem : di ∈ getAvailableDates P s P.examDate wo := by
    rw [hsplit]; exact List.mem_append_right _ (List.mem_cons_self _ _)
  rw [mem_getAvailableDates] at hmem
  obtain ⟨hs, he, hw, hh, _, hmax⟩ := hmem
  refine ⟨hs, he, hw, hh, hmax ▸ hp, ?_⟩
  intro d' hsd' hd' hw' hh'
  have hmem' : (⟨d', d' % 7, maxSessionsOn P d'⟩ : DateInfo) ∈
      getAvailableDates P s P.examDate wo := by
    rw [mem_getAvailableDates]
    exact ⟨hsd', by dsimp only; omega, hw', hh', rfl, rfl⟩
  have hsorted := dates_pairwise_getAvailableDates P s P.examDate wo
  rw [hsplit] at hmem' hsorted
  rcases List.mem_append.mp hmem' with hin1 | hin2
  · have := hl1 _ hin1
    rw [decide_eq_false_iff_not] at this
    dsimp only at this
    omega
  · exfalso
    rw [List.map_append, List.map_cons] at hsorted
    have htail := (List.pairwise_append.mp hsorted).2.1
    rw [List.pairwise_cons] at htail
    rcases List.mem_cons.mp hin2 with heq | hin3
    · have : d' = di.date := by rw [← heq]
      omega
    · have : di.date < d' := by
        have : d' ∈ (l2.map (·.date)) := List.mem_map.mpr ⟨_, hin3, rfl⟩
        exact htail.1 _ this
      omega

theorem getNextSaturdayForReview_spec {P : GenParams} {ag : Agenda} {t d : ℕ}
    (h : getNextSaturdayForReview P ag t = some d) :
    t ≤ d ∧ d ≤ P.examDate ∧ d % 7 = 6 ∧ 0 < P.hours (d % 7) ∧
    agCount ag d < maxSessionsOn P d ∧
    (∀ d', t ≤ d' → d' < d → d' % 7 = 6 → 0 < P.hours (d' % 7) →
      maxSessionsOn P d' ≤ agCount ag d') := by
  unfold getNextSaturdayForReview at h
  rw [Option.map_eq_some'] at h
  obtain ⟨di, hf, rfl⟩ := h
  obtain ⟨hp, l1, l2, hsplit, hl1⟩ := find?_eq_some_split hf
  rw [decide_eq_true_iff] at hp
  have hmem : di ∈ (getAvailableDates P t P.examDate false).filter
      (fun di => di.dayOfWeek == 6) := by
    rw [hsplit]; exact List.mem_append_right _ (List.mem_cons_self _ _)
  rw [List.mem_filter] at hmem
  obtain ⟨hmem, hsat⟩ := hmem
  rw [beq_iff_eq] at hsat
  rw [mem_getAvailableDates] at hmem
  obtain ⟨hs, he, _, hh, hdow, hmax⟩ := hmem
  refine ⟨hs, he, by rw [← hdow, hsat], hh, hmax ▸ hp, ?_⟩
  intro d' hsd' hd' hsat' hh'
  have hmem' : (⟨d', d' % 7, maxSessionsOn P d'⟩ : DateInfo) ∈
      (getAvailableDates P t P.examDate false).filter (fun di => di.dayOfWeek == 6) := by
    rw [List.mem_filter, mem_getAvailableDates]
    refine ⟨⟨hsd', by dsimp only; omega, by simp, hh', rfl, rfl⟩, by simpa using hsat'⟩
  have hsorted : (((getAvailableDates P t P.examDate false).filter
      (fun di => di.dayOfWeek == 6)).map (·.date)).Pairwise (· < ·) := by
    refine List.Pairwise.sublist ?_ (dates_pairwise_getAvailableDates P t P.examDate false)
    exact List.Sublist.map _ (List.filter_sublist _)
  rw [hsplit] at hmem' hsorted
  rcases List.mem_append.mp hmem' with hin1 | hin2
  · have := hl1 _ hin1
    rw [decide_eq_false_iff_not] at this
    dsimp only at this
    omega
  · exfalso
    rw [List.map_append, List.map_cons] at hsorted
    have htail := (List.pairwise_append.mp hsorted).2.1
    rw [List.pairwise_cons] at htail
    rcases List.mem_cons.mp hin2 with heq | hin3
    · have : d' = di.date := by rw [← heq]
      omega
    · have : di.date < d' := htail.1 _ (List.mem_map.mpr ⟨_, hin3, rfl⟩)
      omega

theorem getNextSaturdayForReview_none {P : GenParams} {ag : Agenda} {t : ℕ}
    (h : getNextSaturdayForReview P ag t = none) :
    ∀ d', t ≤ d' → d' ≤ P.examDate → d' % 7 = 6 → 0 < P.hours (d' % 7) →
      maxSessionsOn P d' ≤ agCount ag d' := by
  intro d' h1 h2 h3 h4
  unfold getNextSaturdayForReview at h
  rw [Option.map_eq_none'] at h
  rw [List.find?_eq_none] at h
  have hmem' : (⟨d', d' % 7, maxSessionsOn P d'⟩ : DateInfo) ∈
      (getAvailableDates P t P.examDate false).filter (fun di => di.dayOfWeek == 6) := by
    rw [List.mem_filter, mem_getAvailableDates]
    refine ⟨⟨h1, h2, by simp, h4, rfl, rfl⟩, by simpa using h3⟩
  have := h _ hmem'
  rw [decide_eq_true_iff] at this
  dsimp only at this
  omega

theorem agCount_append (ag1 ag2 : Agenda) (d : ℕ) :
    agCount (ag1 ++ ag2) d = agCount ag1 d + agCount ag2 d := by
  unfold agCount
  rw [List.filter_append, List.length_append]

theorem agCount_single (s : Session) (d : ℕ) :
    agCount [s] d = if s.date = d then 1 else 0 := by
  simp only [agCount, List.filter_singleton]
  by_cases h : s.date = d
  · simp [h]
  · simp [beq_eq_false_iff_ne.mpr h, h]

theorem addsOnly_foldl {α : Type} {step : Agenda → α → Agenda} {l : List α}
    {Q : Session → Prop}
    (h : ∀ x ∈ l, ∀ ag, ∃ out, step ag x = ag ++ out ∧ ∀ s ∈ out, Q s) :
    ∀ ag, ∃ out, l.foldl step ag = ag ++ out ∧ ∀ s ∈ out, Q s := by
  induction l with
  | nil => exact fun ag => ⟨[], by simp⟩
  | cons x xs ih =>
    intro ag
    obtain ⟨o1, ho1, hq1⟩ := h x (List.mem_cons_self _ _) ag
    obtain ⟨o2, ho2, hq2⟩ := ih (fun y hy => h y (List.mem_cons_of_mem _ hy)) (step ag x)
    refine ⟨o1 ++ o2, ?_, ?_⟩
    · rw [List.foldl_cons, ho2, ho1, List.append_assoc]
    · intro s hs
      rcases List.mem_append.mp hs with h1 | h2
      · exact hq1 s h1
      · exact hq2 s h2

theorem capBounded_foldl {α : Type} {P : GenParams} {step : Agenda → α → Agenda}
    {l : List α}
    (h : ∀ x ∈ l, ∀ ag d, agCount (step ag x) d ≤ max (agCount ag d) (maxSessionsOn P d)) :
    ∀ ag d, agCount (l.foldl step ag) d ≤ max (agCount ag d) (maxSessionsOn P d) := by
  induction l with
  | nil => exact fun ag d => by simp
  | cons x xs ih =>
    intro ag d
    calc agCount ((x :: xs).foldl step ag) d
        ≤ max (agCount (step ag x) d) (maxSessionsOn P d) :=
          ih (fun y hy => h y (List.mem_cons_of_mem _ hy)) _ _
      _ ≤ max (max (agCount ag d) (maxSessionsOn P d)) (maxSessionsOn P d) := by
          exact max_le_max_right _ (h x (List.mem_cons_self _ _) ag d)
      _ = max (agCount ag d) (maxSessionsOn P d) := by omega

theorem completedReviewStep_addsOnly (P : GenParams) (t : CompletedTopic) (k : ℕ)
    (ag : Agenda) :
    ∃ out, completedReviewStep P t k ag = ag ++ out ∧ ∀ s ∈ out,
      s.topicId = some t.id ∧ s.sType = .revisao k ∧ s.date % 7 = 6 ∧
      t.completionDate + k ≤ s.date ∧ P.today ≤ s.date ∧ s.date ≤ P.examDate := by
  unfold completedReviewStep
  dsimp only
  split_ifs with hg
  · cases hsat : getNextSaturdayForReview P ag (t.completionDate + k) with
    | none => exact ⟨[], by simp⟩
    | some s =>
      obtain ⟨h1, h2, h3, _, _, _⟩ := getNextSaturdayForReview_spec hsat
      refine ⟨[⟨some t.id, .revisao k, s⟩], rfl, ?_⟩
      intro x hx
      rw [List.mem_singleton] at hx
      subst hx
      refine ⟨rfl, rfl, h3, h1, ?_, h2⟩
      dsimp only
      omega
  · exact ⟨[], by simp⟩

theorem completedReviewStep_capBounded (P : GenParams) (t : CompletedTopic) (k : ℕ)
    (ag : Agenda) (d : ℕ) :
    agCount (completedReviewStep P t k ag) d ≤ max (agCount ag d) (maxSessionsOn P d) := by
  unfold completedReviewStep
  dsimp only
  split_ifs with hg
  · cases hsat : getNextSaturdayForReview P ag (t.completionDate + k) with
    | none => simp
    | some s =>
      obtain ⟨_, _, _, _, hcap, _⟩ := getNextSaturdayForReview_spec hsat
      unfold addSessionToAgenda
      rw [agCount_append, agCount_single]
      dsimp only
      by_cases hd : s = d
      · subst hd; rw [if_pos rfl]; omega
      · rw [if_neg hd]; omega
  · simp

theorem cascadeReviewStep_addsOnly (P : GenParams) (tid studyDay k : ℕ) (ag : Agenda) :
    ∃ out, cascadeReviewStep P tid studyDay k ag = ag ++ out ∧ ∀ s ∈ out,
      s.topicId = some tid ∧ s.sType = .revisao k ∧ s.date % 7 = 6 ∧
      studyDay + k ≤ s.date ∧ s.date ≤ P.examDate := by
  unfold cascadeReviewStep
  dsimp only
  split_ifs with hg
  · cases hsat : getNextSaturdayForReview P ag (studyDay + k) with
    | none => exact ⟨[], by simp⟩
    | some s =>
      obtain ⟨h1, h2, h3, _, _, _⟩ := getNextSaturdayForReview_spec hsat
      refine ⟨[⟨some tid, .revisao k, s⟩], rfl, ?_⟩
      intro x hx
      rw [List.mem_singleton] at hx
      subst hx
      exact ⟨rfl, rfl, h3, h1, h2⟩
  · exact ⟨[], by simp⟩

theorem cascadeReviewStep_capBounded (P : GenParams) (tid studyDay k : ℕ)
    (ag : Agenda) (d : ℕ) :
    agCount (cascadeReviewStep P tid studyDay k ag) d ≤
      max (agCount ag d) (maxSessionsOn P d) := by
  unfold cascadeReviewStep
  dsimp only
  split_ifs with hg
  · cases hsat : getNextSaturdayForReview P ag (studyDay + k) with
    | none => simp
    | some s =>
      obtain ⟨_, _, _, _, hcap, _⟩ := getNextSaturdayForReview_spec hsat
      unfold addSessionToAgenda
      rw [agCount_append, agCount_single]
      dsimp only
      by_cases hd : s = d
      · subst hd; rw [if_pos rfl]; omega
      · rw [if_neg hd]; omega
  · simp

theorem foldl_addSession_map {α : Type} (f : α → Session) (l : List α) (ag : Agenda) :
    l.foldl (fun a x => addSessionToAgenda a (f x)) ag = ag ++ l.map f := by
  induction l generalizing ag with
  | nil => simp
  | cons x xs ih =>
    rw [List.foldl_cons, ih, List.map_cons]
    unfold addSessionToAgenda
    rw [List.append_assoc]
    rfl

theorem agCount_map_date (f : DateInfo → Session) (hf : ∀ di, (f di).date = di.date)
    (L : List DateInfo) (d : ℕ) :
    agCount (L.map f) d = (L.map (·.date)).count d := by
  unfold agCount
  rw [← List.countP_eq_length_filter, List.countP_map, List.count,
    List.countP_map]
  apply List.countP_congr
  intro di _
  simp [hf di]

theorem essayPhase_addsOnly (P : GenParams) (ag : Agenda) :
    ∃ out, essayPhase P ag = ag ++ out ∧
      (∀ s ∈ out, s.topicId = none ∧ s.sType = .redacao ∧ s.date % 7 = 0 ∧
        P.today ≤ s.date ∧ s.date ≤ P.examDate ∧ 0 < P.hours (s.date % 7)) ∧
      (∀ d, agCount out d ≤ essayBump P d) := by
  unfold essayPhase
  by_cases he : P.hasEssay
  · rw [if_pos he]
    set L := (getAvailableDates P P.today P.examDate false).filter
      (fun di => di.dayOfWeek == 0) with hL
    refine ⟨L.map (fun di => ⟨none, .redacao, di.date⟩), ?_, ?_, ?_⟩
    · exact foldl_addSession_map _ L ag
    · intro s hs
      rw [List.mem_map] at hs
      obtain ⟨di, hdi, rfl⟩ := hs
      rw [hL, List.mem_filter] at hdi
      obtain ⟨hdi, hdow⟩ := hdi
      rw [beq_iff_eq] at hdow
      rw [mem_getAvailableDates] at hdi
      obtain ⟨h1, h2, _, h4, h5, _⟩ := hdi
      exact ⟨rfl, rfl, by rw [← h5, hdow], h1, h2, h4⟩
    · intro d
      rw [agCount_map_date _ (fun di => rfl)]
      by_cases hd : d ∈ L.map (·.date)
      · have hle : (L.map (·.date)).count d ≤ 1 := by
          have hnd : (L.map (·.date)).Nodup := by
            refine List.Pairwise.imp (fun h => Nat.ne_of_lt h) ?_
            refine List.Pairwise.sublist ?_
              (dates_pairwise_getAvailableDates P P.today P.examDate false)
            exact List.Sublist.map _ (List.filter_sublist _)
          exact List.nodup_iff_count_le_one.mp hnd d
        have hdow : d % 7 = 0 := by
          rw [List.mem_map] at hd
          obtain ⟨di, hdi, rfl⟩ := hd
          rw [hL, List.mem_filter] at hdi
          obtain ⟨hdi, hdow⟩ := hdi
          rw [beq_iff_eq] at hdow
          rw [mem_getAvailableDates] at hdi
          rw [← hdi.2.2.2.2.1, hdow]
        unfold essayBump
        rw [if_pos ⟨he, hdow⟩]
        exact hle
      · rw [List.count_eq_zero_of_not_mem hd]
        exact Nat.zero_le _
  · rw [if_neg he]
    exact ⟨[], by simp, by simp, fun d => by simp [agCount]⟩

theorem newTopicLoop_addsOnly (P : GenParams) :
    ∀ (ts : List Topic) (c : ℕ) (last : Option ℕ) (ag : Agenda), P.today ≤ c →
    ∃ out, (newTopicLoop P ts c last ag).1 = ag ++ out ∧ ∀ s ∈ out,
      (∃ t ∈ ts, s.topicId = some t.id) ∧
      ((s.sType = .novoTopico ∧ ¬(s.date % 7 = 0 ∨ s.date % 7 = 6)) ∨
        ∃ k ∈ offsets, s.sType = .revisao k ∧ s.date % 7 = 6) ∧
      P.today ≤ s.date ∧ s.date ≤ P.examDate := by
  intro ts
  induction ts with
  | nil => exact fun c last ag hc => ⟨[], by simp [newTopicLoop]⟩
  | cons t rest ih =>
    intro c last ag hc
    unfold newTopicLoop
    cases hslot : findNextAvailableSlot P ag c true with
    | none => exact ⟨[], by simp⟩
    | some d =>
      obtain ⟨hcd, hde, hwd, _, _, _⟩ := findNextAvailableSlot_spec hslot
      have hd : P.today ≤ d := le_trans hc hcd
      have hcasc : ∀ k ∈ offsets, ∀ a, ∃ out,
          cascadeReviewStep P t.id d k a = a ++ out ∧ ∀ s ∈ out,
            s.topicId = some t.id ∧
            (∃ k' ∈ offsets, s.sType = .revisao k' ∧ s.date % 7 = 6 ∧
              d + k' ≤ s.date ∧ s.date ≤ P.examDate) := by
        intro k hk a
        obtain ⟨out, ho, hq⟩ := cascadeReviewStep_addsOnly P t.id d k a
        exact ⟨out, ho, fun s hs => ⟨(hq s hs).1,
          ⟨k, hk, (hq s hs).2.1, (hq s hs).2.2.1, (hq s hs).2.2.2.1, (hq s hs).2.2.2.2⟩⟩⟩
      obtain ⟨outc, hoc, hqc⟩ := addsOnly_foldl hcasc
        (addSessionToAgenda ag ⟨some t.id, .novoTopico, d⟩)
      obtain ⟨outr, hor, hqr⟩ := ih d (some d) _ hd
      dsimp only
      rw [hor, hoc]
      unfold addSessionToAgenda
      refine ⟨[⟨some t.id, .novoTopico, d⟩] ++ outc ++ outr, by simp, ?_⟩
      intro s hs
      simp only [List.mem_append, List.mem_singleton] at hs
      rcases hs with (rfl | hs) | hs
      · exact ⟨⟨t, List.mem_cons_self _ _, rfl⟩, Or.inl ⟨rfl, hwd rfl⟩, hd, hde⟩
      · obtain ⟨h1, k, hk, h2, h3, h4, h5⟩ := hqc s hs
        exact ⟨⟨t, List.mem_cons_self _ _, h1⟩, Or.inr ⟨k, hk, h2, h3⟩, by omega, h5⟩
      · obtain ⟨⟨u, hu, h1⟩, h2, h3, h4⟩ := hqr s hs
        exact ⟨⟨u, List.mem_cons_of_mem _ hu, h1⟩, h2, h3, h4⟩

theorem newTopicLoop_capBounded (P : GenParams) :
    ∀ (ts : List Topic) (c : ℕ) (last : Option ℕ) (ag : Agenda) (d : ℕ),
    agCount ((newTopicLoop P ts c last ag).1) d ≤
      max (agCount ag d) (maxSessionsOn P d) := by
  intro ts
  induction ts with
  | nil => intro c last ag d; simp [newTopicLoop]
  | cons t rest ih =>
    intro c last ag d
    unfold newTopicLoop
    cases hslot : findNextAvailableSlot P ag c true with
    | none => simp
    | some d0 =>
      obtain ⟨_, _, _, _, hcap, _⟩ := findNextAvailableSlot_spec hslot
      dsimp only
      have h2 : ∀ dd, agCount (offsets.foldl
          (fun a k => cascadeReviewStep P t.id d0 k a)
          (addSessionToAgenda ag ⟨some t.id, .novoTopico, d0⟩)) dd ≤
          max (agCount (addSessionToAgenda ag ⟨some t.id, .novoTopico, d0⟩) dd)
            (maxSessionsOn P dd) :=
        fun dd => capBounded_foldl
          (fun k _ a dd' => cascadeReviewStep_capBounded P t.id d0 k a dd') _ dd
      have h1 : ∀ dd, agCount (addSessionToAgenda ag ⟨some t.id, .novoTopico, d0⟩) dd ≤
          max (agCount ag dd) (maxSessionsOn P dd) := by
        intro dd
        unfold addSessionToAgenda
        rw [agCount_append, agCount_single]
        dsimp only
        by_cases hd : d0 = dd
        · subst hd; rw [if_pos rfl]; omega
        · rw [if_neg hd]; omega
      calc agCount ((newTopicLoop P rest d0 (some d0) _).1) d
          ≤ max (agCount (offsets.foldl (fun a k => cascadeReviewStep P t.id d0 k a)
              (addSessionToAgenda ag ⟨some t.id, .novoTopico, d0⟩)) d)
              (maxSessionsOn P d) := ih _ _ _ _
        _ ≤ max (agCount ag d) (maxSessionsOn P d) := by
            have := h2 d
            have := h1 d
            omega

theorem newTopicLoop_last (P : GenParams) :
    ∀ (ts : List Topic) (c : ℕ) (last : Option ℕ) (ag : Agenda), P.today ≤ c →
    (∀ d, last = some d → P.today ≤ d) →
    ∀ d, (newTopicLoop P ts c last ag).2.1 = some d → P.today ≤ d := by
  intro ts
  induction ts with
  | nil =>
    intro c last ag hc hl d hd
    exact hl d hd
  | cons t rest ih =>
    intro c last ag hc hl d hd
    rw [newTopicLoop] at hd
    revert hd
    cases hslot : findNextAvailableSlot P ag c true with
    | none => exact fun hd => hl d hd
    | some d0 =>
      obtain ⟨hcd, _, _, _, _, _⟩ := findNextAvailableSlot_spec hslot
      intro hd
      exact ih d0 (some d0) _ (by omega) (fun x hx => by
        rw [Option.some_inj] at hx; omega) d hd

theorem countNewTopicFor_append (a b : Agenda) (tid : ℕ) :
    countNewTopicFor (a ++ b) tid = countNewTopicFor a tid + countNewTopicFor b tid := by
  unfold countNewTopicFor
  rw [List.filter_append, List.length_append]

theorem countNewTopicFor_single (s : Session) (tid : ℕ) :
    countNewTopicFor [s] tid =
      if s.topicId = some tid ∧ s.sType = SType.novoTopico then 1 else 0 := by
  unfold countNewTopicFor
  rw [List.filter_singleton]
  cases hb : (s.topicId == some tid && s.sType == SType.novoTopico) with
  | false =>
    have hn : ¬(s.topicId = some tid ∧ s.sType = SType.novoTopico) := by
      rintro ⟨h1, h2⟩
      simp [h1, h2] at hb
    rw [if_neg hn]
    rfl
  | true =>
    rw [Bool.and_eq_true, beq_iff_eq, beq_iff_eq] at hb
    rw [if_pos hb]
    rfl

theorem countNewTopicFor_nonNovo (out : Agenda) (tid : ℕ)
    (h : ∀ s ∈ out, s.sType ≠ SType.novoTopico) :
    countNewTopicFor out tid = 0 := by
  unfold countNewTopicFor
  rw [List.length_eq_zero, List.filter_eq_nil_iff]
  intro s hs
  rw [Bool.and_eq_true, beq_iff_eq, beq_iff_eq]
  rintro ⟨_, h2⟩
  exact h s hs h2

theorem newTopicLoop_countNT (P : GenParams) :
    ∀ (ts : List Topic) (c : ℕ) (last : Option ℕ) (ag : Agenda),
    (ts.map (·.id)).Nodup →
    ∃ pre, ts = pre ++ (newTopicLoop P ts c last ag).2.2 ∧
      ∀ tid, countNewTopicFor ((newTopicLoop P ts c last ag).1) tid =
        countNewTopicFor ag tid + (if tid ∈ pre.map (·.id) then 1 else 0) := by
  intro ts
  induction ts with
  | nil =>
    intro c last ag _
    exact ⟨[], by simp [newTopicLoop]⟩
  | cons t rest ih =>
    intro c last ag hnd
    rw [List.map_cons, List.nodup_cons] at hnd
    unfold newTopicLoop
    cases hslot : findNextAvailableSlot P ag c true with
    | none => exact ⟨[], by simp⟩
    | some d =>
      dsimp only
      obtain ⟨pre', hpre', hcnt⟩ := ih d (some d) (offsets.foldl
        (fun a k => cascadeReviewStep P t.id d k a)
        (addSessionToAgenda ag ⟨some t.id, .novoTopico, d⟩)) hnd.2
      refine ⟨t :: pre', by rw [List.cons_append, ← hpre'], ?_⟩
      intro tid
      rw [hcnt tid]
      have hcasc : ∀ k ∈ offsets, ∀ a, ∃ out,
          cascadeReviewStep P t.id d k a = a ++ out ∧
          ∀ s ∈ out, s.sType ≠ SType.novoTopico := by
        intro k hk a
        obtain ⟨out, ho, hq⟩ := cascadeReviewStep_addsOnly P t.id d k a
        refine ⟨out, ho, fun s hs => ?_⟩
        rw [(hq s hs).2.1]
        simp
      obtain ⟨outc, hoc, hqc⟩ := addsOnly_foldl hcasc
        (addSessionToAgenda ag ⟨some t.id, .novoTopico, d⟩)
      rw [hoc]
      unfold addSessionToAgenda
      rw [countNewTopicFor_append, countNewTopicFor_append,
        countNewTopicFor_single, countNewTopicFor_nonNovo outc tid hqc]
      dsimp only
      by_cases htid : tid = t.id
      · subst htid
        have h1 : (if t.id ∈ pre'.map (·.id) then 1 else 0) = 0 := by
          rw [if_neg]
          intro hmem
          rw [List.mem_map] at hmem
          obtain ⟨u, hu, hid⟩ := hmem
          exact hnd.1 (List.mem_map.mpr
            ⟨u, by rw [hpre']; exact List.mem_append_left _ hu, hid⟩)
        have h2 : (if t.id ∈ (t :: pre').map (·.id) then 1 else 0) = 1 :=
          if_pos (by simp)
        rw [if_pos (⟨rfl, rfl⟩ : _ ∧ _), h1, h2]
      · have h1 : (if (some t.id : Option ℕ) = some tid ∧
            SType.novoTopico = SType.novoTopico then 1 else 0) = 0 := by
          rw [if_neg]
          rintro ⟨hc, _⟩
          rw [Option.some_inj] at hc
          exact htid hc.symm
        have h2 : (tid ∈ (t :: pre').map (·.id)) ↔ (tid ∈ pre'.map (·.id)) := by
          simp [htid]
        rw [h1]
        by_cases hm : tid ∈ pre'.map (·.id)
        · rw [if_pos hm, if_pos (h2.mpr hm)]
        · rw [if_neg hm, if_neg (fun hx => hm (h2.mp hx))]

theorem newTopicLoop_addsOwn (P : GenParams) :
    ∀ (ts : List Topic) (c : ℕ) (last : Option ℕ) (ag : Agenda),
    ∃ out, (newTopicLoop P ts c last ag).1 = ag ++ out ∧
      ∀ s ∈ out, ∃ t ∈ ts, s.topicId = some t.id := by
  intro ts
  induction ts with
  | nil => exact fun c last ag => ⟨[], by simp [newTopicLoop]⟩
  | cons t rest ih =>
    intro c last ag
    unfold newTopicLoop
    cases hslot : findNextAvailableSlot P ag c true with
    | none => exact ⟨[], by simp⟩
    | some d =>
      dsimp only
      have hcasc : ∀ k ∈ offsets, ∀ a, ∃ out,
          cascadeReviewStep P t.id d k a = a ++ out ∧
          ∀ s ∈ out, s.topicId = some t.id :=
        fun k _ a => by
          obtain ⟨out, ho, hq⟩ := cascadeReviewStep_addsOnly P t.id d k a
          exact ⟨out, ho, fun s hs => (hq s hs).1⟩
      obtain ⟨outc, hoc, hqc⟩ := addsOnly_foldl hcasc
        (addSessionToAgenda ag ⟨some t.id, .novoTopico, d⟩)
      obtain ⟨outr, hor, hqr⟩ := ih d (some d) _
      rw [hor, hoc]
      unfold addSessionToAgenda
      refine ⟨[⟨some t.id, .novoTopico, d⟩] ++ outc ++ outr, by simp, ?_⟩
      intro s hs
      simp only [List.mem_append, List.mem_singleton] at hs
      rcases hs with (rfl | hs) | hs
      · exact ⟨t, List.mem_cons_self _ _, rfl⟩
      · exact ⟨t, List.mem_cons_self _ _, hqc s hs⟩
      · obtain ⟨u, hu, h1⟩ := hqr s hs
        exact ⟨u, List.mem_cons_of_mem _ hu, h1⟩

theorem newTopicLoop_pairing (P : GenParams) :
    ∀ (ts : List Topic) (c : ℕ) (last : Option ℕ) (ag : Agenda) (tid k' : ℕ),
    (ts.map (·.id)).Nodup →
    (∀ s ∈ ag, s.topicId ≠ some tid) →
    ∀ r n, r ∈ (newTopicLoop P ts c last ag).1 → n ∈ (newTopicLoop P ts c last ag).1 →
      r.topicId = some tid → n.topicId = some tid →
      r.sType = .revisao k' → n.sType = .novoTopico →
      r.date % 7 = 6 ∧ n.date + k' ≤ r.date ∧ r.date ≤ P.examDate := by
  intro ts
  induction ts with
  | nil =>
    intro c last ag tid k' _ hag r n hr hn hrt _ _ _
    rw [newTopicLoop] at hr
    exact absurd hrt (hag r hr)
  | cons t rest ih =>
    intro c last ag tid k' hnd hag r n hr hn hrt hnt hrk hnn
    rw [List.map_cons, List.nodup_cons] at hnd
    rw [newTopicLoop] at hr hn
    revert hr hn
    cases hslot : findNextAvailableSlot P ag c true with
    | none =>
      intro hr hn
      exact absurd hrt (hag r hr)
    | some d =>
      dsimp only
      intro hr hn
      have hcasc : ∀ k ∈ offsets, ∀ a, ∃ out,
          cascadeReviewStep P t.id d k a = a ++ out ∧ ∀ s ∈ out,
            s.topicId = some t.id ∧
            (∃ k0 ∈ offsets, s.sType = .revisao k0 ∧ s.date % 7 = 6 ∧
              d + k0 ≤ s.date ∧ s.date ≤ P.examDate) := by
        intro k hk a
        obtain ⟨out, ho, hq⟩ := cascadeReviewStep_addsOnly P t.id d k a
        exact ⟨out, ho, fun s hs => ⟨(hq s hs).1,
          ⟨k, hk, (hq s hs).2.1, (hq s hs).2.2.1, (hq s hs).2.2.2.1, (hq s hs).2.2.2.2⟩⟩⟩
      obtain ⟨outc, hoc, hqc⟩ := addsOnly_foldl hcasc
        (addSessionToAgenda ag ⟨some t.id, .novoTopico, d⟩)
      by_cases htid : t.id = tid
      · obtain ⟨outr, hor, hqr⟩ := newTopicLoop_addsOwn P rest d (some d)
          (offsets.foldl (fun a k => cascadeReviewStep P t.id d k a)
            (addSessionToAgenda ag ⟨some t.id, .novoTopico, d⟩))
        rw [hor, hoc] at hr hn
        unfold addSessionToAgenda at hr hn
        have hnotr : ∀ s ∈ outr, s.topicId ≠ some tid := by
          intro s hs hc
          obtain ⟨u, hu, hid⟩ := hqr s hs
          rw [hc] at hid
          rw [Option.some_inj] at hid
          refine hnd.1 ?_
          rw [List.mem_map]
          exact ⟨u, hu, by omega⟩
        simp only [List.mem_append, List.mem_singleton] at hr hn
        have hrc : r ∈ outc := by
          rcases hr with ((hr | hr) | hr) | hr
          · exact absurd hrt (hag r hr)
          · rw [hr] at hrk
            exact absurd hrk (by simp)
          · exact hr
          · exact absurd hrt (hnotr r hr)
        have hnd0 : n = ⟨some t.id, .novoTopico, d⟩ := by
          rcases hn with ((hn | hn) | hn) | hn
          · exact absurd hnt (hag n hn)
          · exact hn
          · obtain ⟨_, k0, _, hk0, _⟩ := hqc n hn
            rw [hnn] at hk0
            exact absurd hk0 (by simp)
          · exact absurd hnt (hnotr n hn)
        obtain ⟨_, k0, _, hsr, hsat, hge, hle⟩ := hqc r hrc
        rw [hrk] at hsr
        have hk0 : k0 = k' := by
          injection hsr.symm
        subst hk0
        rw [hnd0]
        refine ⟨hsat, ?_, hle⟩
        dsimp only
        omega
      · refine ih d (some d) _ tid k' hnd.2 ?_ r n hr hn hrt hnt hrk hnn
        rw [hoc]
        unfold addSessionToAgenda
        intro s hs
        simp only [List.mem_append, List.mem_singleton] at hs
        rcases hs with (hs | hs) | hs
        · exact hag s hs
        · rw [hs]
          intro hc
          rw [Option.some_inj] at hc
          exact htid hc
        · intro hc
          rw [(hqc s hs).1] at hc
          rw [Option.some_inj] at hc
          exact htid hc

theorem placeDirectedGroups_addsOnly (P : GenParams) :
    ∀ (g c : ℕ) (ag : Agenda), ∃ out,
      (placeDirectedGroups P g c ag).1 = ag ++ out ∧
      c ≤ (placeDirectedGroups P g c ag).2 ∧
      ∀ s ∈ out, s.topicId = none ∧ s.sType = .simuladoDirecionado ∧
        c ≤ s.date ∧ s.date ≤ P.examDate := by
  intro g
  induction g with
  | zero => exact fun c ag => ⟨[], by simp [placeDirectedGroups]⟩
  | succ g ih =>
    intro c ag
    unfold placeDirectedGroups
    cases hslot : findNextAvailableSlot P ag c false with
    | none => exact ⟨[], by simp⟩
    | some d =>
      obtain ⟨hcd, hde, _, _, _, _⟩ := findNextAvailableSlot_spec hslot
      obtain ⟨out, ho, hcur, hq⟩ := ih (d + 3)
        (addSessionToAgenda ag ⟨none, .simuladoDirecionado, d⟩)
      dsimp only
      rw [ho]
      unfold addSessionToAgenda
      refine ⟨[⟨none, .simuladoDirecionado, d⟩] ++ out, by simp, ?_, ?_⟩
      · unfold addSessionToAgenda at hcur
        omega
      intro s hs
      simp only [List.mem_append, List.mem_singleton] at hs
      rcases hs with rfl | hs
      · exact ⟨rfl, rfl, hcd, hde⟩
      · obtain ⟨h1, h2, h3, h4⟩ := hq s hs
        exact ⟨h1, h2, by omega, h4⟩

theorem placeDirectedGroups_capBounded (P : GenParams) :
    ∀ (g c : ℕ) (ag : Agenda) (d : ℕ),
      agCount ((placeDirectedGroups P g c ag).1) d ≤
        max (agCount ag d) (maxSessionsOn P d) := by
  intro g
  induction g with
  | zero => intro c ag d; simp [placeDirectedGroups]
  | succ g ih =>
    intro c ag d
    unfold placeDirectedGroups
    cases hslot : findNextAvailableSlot P ag c false with
    | none => simp
    | some d0 =>
      obtain ⟨_, _, _, _, hcap, _⟩ := findNextAvailableSlot_spec hslot
      dsimp only
      calc agCount ((placeDirectedGroups P g (d0 + 3) _).1) d
          ≤ max (agCount (addSessionToAgenda ag ⟨none, .simuladoDirecionado, d0⟩) d)
            (maxSessionsOn P d) := ih _ _ _
        _ ≤ max (agCount ag d) (maxSessionsOn P d) := by
            unfold addSessionToAgenda
            rw [agCount_append, agCount_single]
            dsimp only
            by_cases hd : d0 = d
            · subst hd; rw [if_pos rfl]; omega
            · rw [if_neg hd]; omega

theorem directedFold_addsOnly (P : GenParams) (f : String → ℕ) :
    ∀ (names : List String) (ag : Agenda) (c : ℕ),
    ∃ out cur, names.foldl
        (fun (acc : Agenda × ℕ) nm => placeDirectedGroups P (f nm) acc.2 acc.1)
        (ag, c) = (ag ++ out, cur) ∧ c ≤ cur ∧
      ∀ s ∈ out, s.topicId = none ∧ s.sType = .simuladoDirecionado ∧
        c ≤ s.date ∧ s.date ≤ P.examDate := by
  intro names
  induction names with
  | nil => exact fun ag c => ⟨[], c, by simp⟩
  | cons nm rest ih =>
    intro ag c
    rw [List.foldl_cons]
    obtain ⟨o1, ho1, hc1, hq1⟩ := placeDirectedGroups_addsOnly P (f nm) c ag
    obtain ⟨o2, cur, ho2, hc2, hq2⟩ := ih (ag ++ o1) (placeDirectedGroups P (f nm) c ag).2
    have : (placeDirectedGroups P (f nm) c ag) = (ag ++ o1, (placeDirectedGroups P (f nm) c ag).2) := by
      rw [← ho1]
    rw [this, ho2]
    refine ⟨o1 ++ o2, cur, by rw [List.append_assoc], by omega, ?_⟩
    intro s hs
    rcases List.mem_append.mp hs with h | h
    · exact hq1 s h
    · obtain ⟨h1, h2, h3, h4⟩ := hq2 s h
      exact ⟨h1, h2, by omega, h4⟩

theorem directedFold_capBounded (P : GenParams) (f : String → ℕ) :
    ∀ (names : List String) (ag : Agenda) (c : ℕ) (d : ℕ),
      agCount ((names.foldl
        (fun (acc : Agenda × ℕ) nm => placeDirectedGroups P (f nm) acc.2 acc.1)
        (ag, c)).1) d ≤ max (agCount ag d) (maxSessionsOn P d) := by
  intro names
  induction names with
  | nil => intro ag c d; simp
  | cons nm rest ih =>
    intro ag c d
    rw [List.foldl_cons]
    have h1 := placeDirectedGroups_capBounded P (f nm) c ag d
    have heq : (placeDirectedGroups P (f nm) c ag) =
        ((placeDirectedGroups P (f nm) c ag).1, (placeDirectedGroups P (f nm) c ag).2) := rfl
    rw [heq]
    calc agCount ((rest.foldl _ ((placeDirectedGroups P (f nm) c ag).1,
            (placeDirectedGroups P (f nm) c ag).2)).1) d
        ≤ max (agCount ((placeDirectedGroups P (f nm) c ag).1) d) (maxSessionsOn P d) :=
          ih _ _ _
      _ ≤ max (agCount ag d) (maxSessionsOn P d) := by omega

theorem basicMockPhase_addsOnly (P : GenParams) (m : ℕ) (ag : Agenda) :
    ∃ out, basicMockPhase P m ag = ag ++ out ∧
      ∀ s ∈ out, s.topicId = none ∧ s.sType = .simuladoCompleto ∧
        m + 7 ≤ s.date ∧ s.date ≤ P.examDate := by
  unfold basicMockPhase
  cases hslot : findNextAvailableSlot P ag (m + 7) false with
  | none => exact ⟨[], by simp⟩
  | some d =>
    obtain ⟨h1, h2, _, _, _, _⟩ := findNextAvailableSlot_spec hslot
    refine ⟨[⟨none, .simuladoCompleto, d⟩], rfl, ?_⟩
    intro s hs
    rw [List.mem_singleton] at hs
    subst hs
    exact ⟨rfl, rfl, h1, h2⟩

theorem basicMockPhase_capBounded (P : GenParams) (m : ℕ) (ag : Agenda) (d : ℕ) :
    agCount (basicMockPhase P m ag) d ≤ max (agCount ag d) (maxSessionsOn P d) := by
  unfold basicMockPhase
  cases hslot : findNextAvailableSlot P ag (m + 7) false with
  | none => simp
  | some d0 =>
    obtain ⟨_, _, _, _, hcap, _⟩ := findNextAvailableSlot_spec hslot
    unfold addSessionToAgenda
    rw [agCount_append, agCount_single]
    dsimp only
    by_cases hd : d0 = d
    · subst hd; rw [if_pos rfl]; omega
    · rw [if_neg hd]; omega

theorem recurringMockLoop_addsOnly (P : GenParams) :
    ∀ (n c : ℕ) (ag : Agenda), ∃ out,
      recurringMockLoop P n c ag = ag ++ out ∧
      ∀ s ∈ out, s.topicId = none ∧ s.sType = .simuladoCompleto ∧
        c ≤ s.date ∧ s.date ≤ P.examDate := by
  intro n
  induction n with
  | zero => exact fun c ag => ⟨[], by simp [recurringMockLoop]⟩
  | succ n ih =>
    intro c ag
    unfold recurringMockLoop
    cases hslot : findNextAvailableSlot P ag c false with
    | none => exact ⟨[], by simp⟩
    | some d =>
      obtain ⟨hcd, hde, _, _, _, _⟩ := findNextAvailableSlot_spec hslot
      obtain ⟨out, ho, hq⟩ := ih (d + 3)
        (addSessionToAgenda ag ⟨none, .simuladoCompleto, d⟩)
      dsimp only
      rw [ho]
      unfold addSessionToAgenda
      refine ⟨[⟨none, .simuladoCompleto, d⟩] ++ out, by simp, ?_⟩
      intro s hs
      simp only [List.mem_append, List.mem_singleton] at hs
      rcases hs with rfl | hs
      · exact ⟨rfl, rfl, hcd, hde⟩
      · obtain ⟨h1, h2, h3, h4⟩ := hq s hs
        exact ⟨h1, h2, by omega, h4⟩

theorem recurringMockLoop_capBounded (P : GenParams) :
    ∀ (n c : ℕ) (ag : Agenda) (d : ℕ),
      agCount (recurringMockLoop P n c ag) d ≤
        max (agCount ag d) (maxSessionsOn P d) := by
  intro n
  induction n with
  | zero => intro c ag d; simp [recurringMockLoop]
  | succ n ih =>
    intro c ag d
    unfold recurringMockLoop
    cases hslot : findNextAvailableSlot P ag c false with
    | none => simp
    | some d0 =>
      obtain ⟨_, _, _, _, hcap, _⟩ := findNextAvailableSlot_spec hslot
      dsimp only
      calc agCount (recurringMockLoop P n (d0 + 3) _) d
          ≤ max (agCount (addSessionToAgenda ag ⟨none, .simuladoCompleto, d0⟩) d)
            (maxSessionsOn P d) := ih _ _ _
        _ ≤ max (agCount ag d) (maxSessionsOn P d) := by
            unfold addSessionToAgenda
            rw [agCount_append, agCount_single]
            dsimp only
            by_cases hd : d0 = d
            · subst hd; rw [if_pos rfl]; omega
            · rw [if_neg hd]; omega

theorem completedReviewsPhase_addsOnly (P : GenParams) (ts : List CompletedTopic)
    (ag : Agenda) :
    ∃ out, completedReviewsPhase P ts ag = ag ++ out ∧ ∀ s ∈ out,
      (∃ t ∈ ts, s.topicId = some t.id) ∧
      (∃ k ∈ offsets, s.sType = .revisao k ∧ s.date % 7 = 6) ∧
      P.today ≤ s.date ∧ s.date ≤ P.examDate := by
  unfold completedReviewsPhase
  refine addsOnly_foldl ?_ ag
  intro t ht a
  refine addsOnly_foldl ?_ a
  intro k hk a2
  obtain ⟨out, ho, hq⟩ := completedReviewStep_addsOnly P t k a2
  refine ⟨out, ho, fun s hs => ?_⟩
  obtain ⟨h1, h2, h3, h4, h5, h6⟩ := hq s hs
  exact ⟨⟨t, ht, h1⟩, ⟨k, hk, h2, h3⟩, h5, h6⟩

theorem completedReviewsPhase_capBounded (P : GenParams) (ts : List CompletedTopic)
    (ag : Agenda) (d : ℕ) :
    agCount (completedReviewsPhase P ts ag) d ≤
      max (agCount ag d) (maxSessionsOn P d) := by
  unfold completedReviewsPhase
  refine capBounded_foldl ?_ ag d
  intro t _ a dd
  refine capBounded_foldl ?_ a dd
  intro k _ a2 dd2
  exact completedReviewStep_capBounded P t k a2 dd2

theorem genMaintenanceStart_ge (inp : GenInput) :
    inp.P.today ≤ genMaintenanceStart inp := by
  unfold genMaintenanceStart
  cases h : (genNewTopicResult inp).2.1 with
  | none => dsimp only; omega
  | some d =>
    have := newTopicLoop_last inp.P (dedupById inp.shuffled) inp.P.today none
      (completedReviewsPhase inp.P inp.completedTopics (essayPhase inp.P []))
      le_rfl (fun x hx => by simp at hx) d (by rw [← h]; rfl)
    dsimp only
    omega

theorem genNewTopicResult_mem (inp : GenInput) :
    ∀ s ∈ (genNewTopicResult inp).1,
      inp.P.today ≤ s.date ∧ s.date ≤ inp.P.examDate := by
  intro s hs
  unfold genNewTopicResult at hs
  obtain ⟨o1, ho1, hq1, _⟩ := essayPhase_addsOnly inp.P []
  obtain ⟨o2, ho2, hq2⟩ := completedReviewsPhase_addsOnly inp.P inp.completedTopics
    (essayPhase inp.P [])
  obtain ⟨o3, ho3, hq3⟩ := newTopicLoop_addsOnly inp.P (dedupById inp.shuffled)
    inp.P.today none (completedReviewsPhase inp.P inp.completedTopics (essayPhase inp.P []))
    le_rfl
  rw [ho3, ho2, ho1] at hs
  simp only [List.nil_append, List.mem_append] at hs
  rcases hs with (hs | hs) | hs
  · exact ⟨(hq1 s hs).2.2.2.1, (hq1 s hs).2.2.2.2.1⟩
  · exact ⟨(hq2 s hs).2.2.1, (hq2 s hs).2.2.2⟩
  · exact ⟨(hq3 s hs).2.2.1, (hq3 s hs).2.2.2⟩

theorem genNewTopicResult_capBounded (inp : GenInput) (d : ℕ) :
    agCount (genNewTopicResult inp).1 d ≤
      max (essayBump inp.P d) (maxSessionsOn inp.P d) := by
  unfold genNewTopicResult
  obtain ⟨o1, ho1, _, hcnt⟩ := essayPhase_addsOnly inp.P []
  have h1 : agCount (essayPhase inp.P []) d ≤ essayBump inp.P d := by
    rw [ho1]
    simp only [List.nil_append]
    exact hcnt d
  have h2 := completedReviewsPhase_capBounded inp.P inp.completedTopics
    (essayPhase inp.P []) d
  have h3 := newTopicLoop_capBounded inp.P (dedupById inp.shuffled) inp.P.today none
    (completedReviewsPhase inp.P inp.completedTopics (essayPhase inp.P [])) d
  omega

theorem genStage3_mem (inp : GenInput) :
    ∀ s ∈ genStage3 inp, inp.P.today ≤ s.date ∧ s.date ≤ inp.P.examDate := by
  intro s hs
  unfold genStage3 at hs
  split_ifs at hs
  · unfold directedMockPhase at hs
    obtain ⟨out, cur, ho, _, hq⟩ := directedFold_addsOnly inp.P
      (fun nm => numGroups (completedCountFor inp.allTopics nm))
      (subjectsReadyForSim inp.allTopics) (genNewTopicResult inp).1
      (genMaintenanceStart inp)
    rw [ho] at hs
    dsimp only at hs
    rcases List.mem_append.mp hs with h | h
    · exact genNewTopicResult_mem inp s h
    · obtain ⟨_, _, h3, h4⟩ := hq s h
      have := genMaintenanceStart_ge inp
      exact ⟨by omega, h4⟩
  · exact genNewTopicResult_mem inp s hs

theorem genStage3_capBounded (inp : GenInput) (d : ℕ) :
    agCount (genStage3 inp) d ≤
      max (essayBump inp.P d) (maxSessionsOn inp.P d) := by
  unfold genStage3
  split_ifs
  · unfold directedMockPhase
    have h1 := directedFold_capBounded inp.P
      (fun nm => numGroups (completedCountFor inp.allTopics nm))
      (subjectsReadyForSim inp.allTopics) (genNewTopicResult inp).1
      (genMaintenanceStart inp) d
    have h2 := genNewTopicResult_capBounded inp d
    omega
  · exact genNewTopicResult_capBounded inp d

theorem genStage4_mem (inp : GenInput) :
    ∀ s ∈ genStage4 inp, inp.P.today ≤ s.date ∧ s.date ≤ inp.P.examDate := by
  intro s hs
  unfold genStage4 at hs
  split_ifs at hs
  · obtain ⟨out, ho, hq⟩ := basicMockPhase_addsOnly inp.P (genMaintenanceStart inp)
      (genStage3 inp)
    rw [ho] at hs
    rcases List.mem_append.mp hs with h | h
    · exact genStage3_mem inp s h
    · obtain ⟨_, _, h3, h4⟩ := hq s h
      have := genMaintenanceStart_ge inp
      exact ⟨by omega, h4⟩
  · exact genStage3_mem inp s hs

theorem genStage4_capBounded (inp : GenInput) (d : ℕ) :
    agCount (genStage4 inp) d ≤
      max (essayBump inp.P d) (maxSessionsOn inp.P d) := by
  unfold genStage4
  split_ifs
  · have h1 := basicMockPhase_capBounded inp.P (genMaintenanceStart inp) (genStage3 inp) d
    have h2 := genStage3_capBounded inp d
    omega
  · exact genStage3_capBounded inp d

/-! ## Claim theorems -/

/-- Claim C1, amended: every date's session count stays within
`floor(hoursForWeekday(d) * 60 / sessionDurationMinutes)` except for the one
Essay session a Sunday receives without a capacity check when the essay flag
is set: the count never exceeds `max (maxSessionsOn d) (essayBump d)`. -/
theorem c1_capacity_with_essay_exception (inp : GenInput) (d : ℕ) :
    agCount (buildAgenda inp) d ≤
      max (maxSessionsOn inp.P d) (essayBump inp.P d) := by
  unfold buildAgenda
  split_ifs
  · have h1 := recurringMockLoop_capBounded inp.P 20 (genMaintenanceStart inp + 5)
      (genStage4 inp) d
    have h2 := genStage4_capBounded inp d
    omega
  · have := genStage4_capBounded inp d
    omega

/-- Claim C1, counterexample: with 1 Sunday hour, 240-minute sessions and the
essay flag set, the run schedules 1 session on day 0 (a Sunday) although
`floor(1 * 60 / 240) = 0`: the claimed capacity invariant fails for Essay
sessions. -/
theorem c1_counterexample :
    agCount (buildAgenda inpC1) 0 = 1 ∧ maxSessionsOn inpC1.P 0 = 0 := by
  have hr : List.range (6 + 1 - 0) = [0, 1, 2, 3, 4, 5, 6] := rfl
  have heval : buildAgenda inpC1 = [⟨none, SType.redacao, 0⟩] := by
    norm_num [buildAgenda, genStage4, genStage3, genSimGate, pendingTopics,
      genNewTopicResult, newTopicLoop, dedupById, essayPhase, completedReviewsPhase,
      findNextAvailableSlot, getAvailableDates, hr, maxSessionsOn, addSessionToAgenda,
      agCount, inpC1, hoursSundayOnly, List.filterMap_cons]
  constructor
  · rw [heval]
    rfl
  · norm_num [maxSessionsOn, inpC1, hoursSundayOnly]

/-- Claim C9, confirmed: every session created by a generate run is dated within
`[today, examDate]` inclusive, for every input and shuffle outcome. -/
theorem c9_session_dates_within_range (inp : GenInput) :
    ∀ s ∈ buildAgenda inp, inp.P.today ≤ s.date ∧ s.date ≤ inp.P.examDate := by
  intro s hs
  unfold buildAgenda at hs
  split_ifs at hs
  · obtain ⟨out, ho, hq⟩ := recurringMockLoop_addsOnly inp.P 20
      (genMaintenanceStart inp + 5) (genStage4 inp)
    rw [ho] at hs
    rcases List.mem_append.mp hs with h | h
    · exact genStage4_mem inp s h
    · obtain ⟨_, _, h3, h4⟩ := hq s h
      have := genMaintenanceStart_ge inp
      exact ⟨by omega, h4⟩
  · exact genStage4_mem inp s hs

/-- C9, witness at a concrete run: the essay session of `inpC1` is dated
inside `[today, examDate]`. -/
theorem c9_witness :
    inpC1.P.today ≤ (0 : ℕ) ∧ (0 : ℕ) ≤ inpC1.P.examDate :=
  c9_session_dates_within_range inpC1 ⟨none, SType.redacao, 0⟩ (by
    have hr : List.range (6 + 1 - 0) = [0, 1, 2, 3, 4, 5, 6] := rfl
    have heval : buildAgenda inpC1 = [⟨none, SType.redacao, 0⟩] := by
      norm_num [buildAgenda, genStage4, genStage3, genSimGate, pendingTopics,
        genNewTopicResult, newTopicLoop, dedupById, essayPhase, completedReviewsPhase,
        findNextAvailableSlot, getAvailableDates, hr, maxSessionsOn, addSessionToAgenda,
        agCount, inpC1, hoursSundayOnly, List.filterMap_cons]
    rw [heval]
    exact List.mem_singleton_self _)

/-- Claim C5, confirmed: `getAvailableDates` returns exactly the dates of
`[start, end]` whose weekday allocation is positive (Saturday/Sunday
additionally excluded under `weekdayOnly`), in ascending order, each with
`maxSessions = floor(hours * 60 / sessionDurationMinutes)`; e.g. 4 hours at
duration 50 gives capacity 4. -/
theorem c5_available_dates_contract (P : GenParams) (s e : ℕ) (wo : Bool) :
    (∀ di : DateInfo, di ∈ getAvailableDates P s e wo ↔
      (s ≤ di.date ∧ di.date ≤ e ∧
        (wo = true → ¬(di.date % 7 = 0 ∨ di.date % 7 = 6)) ∧
        0 < P.hours (di.date % 7) ∧
        di.dayOfWeek = di.date % 7 ∧
        di.maxSessions = (⌊P.hours (di.date % 7) * 60 / (P.dur : ℚ)⌋).toNat))
    ∧ ((getAvailableDates P s e wo).map (·.date)).Pairwise (· < ·)
    ∧ maxSessionsOn ⟨fun _ => (4 : ℚ), 50, 0, 29, false⟩ 1 = 4 := by
  refine ⟨fun di => ?_, dates_pairwise_getAvailableDates P s e wo, ?_⟩
  · rw [mem_getAvailableDates]
    simp only [maxSessionsOn]
  · norm_num [maxSessionsOn]
    rfl

/-- Claim C3, amended: `generate` fails with the configuration error iff the sum
of the `parseInt`-truncated weekday hour entries is zero (fractional parts
are discarded by the check), and on that failure the transaction rollback
leaves the stored sessions untouched and creates none. -/
theorem c3_config_error_truncated_hours (st : GenStore) (inp : GenInput)
    (hf : st.planFound = true) :
    ((generateEndpoint st inp).2 = .configError ↔ totalWeeklyHours inp.P.hours = 0)
    ∧ (totalWeeklyHours inp.P.hours = 0 →
        generateEndpoint st inp = (st, .configError)) := by
  unfold generateEndpoint
  rw [if_neg (by rw [hf]; simp)]
  by_cases h0 : totalWeeklyHours inp.P.hours = 0
  · rw [if_pos h0]
    exact ⟨by simp [h0], fun _ => rfl⟩
  · rw [if_neg h0]
    refine ⟨?_, fun h => absurd h h0⟩
    split_ifs <;> simp [h0]

/-- Claim C3, counterexample: a plan whose only allocation is half an hour on
Sunday has true weekly total 1/2 ≠ 0, yet `generate` still raises the
configuration error, because `parseInt` truncates 0.5 to 0. -/
theorem c3_counterexample :
    (generateEndpoint stC3 inpC3).2 = .configError ∧
    ((List.range 7).map (fun i => inpC3.P.hours i)).sum ≠ 0 := by
  have hr : List.range 7 = [0, 1, 2, 3, 4, 5, 6] := rfl
  constructor
  · have h0 : totalWeeklyHours inpC3.P.hours = 0 := by
      norm_num [totalWeeklyHours, jsTrunc, inpC3, hoursHalfSunday, hr]
    simp [generateEndpoint, stC3, h0]
  · norm_num [inpC3, hoursHalfSunday, hr]

/-- Claim C3, witness: a plan with all seven entries zero raises the
configuration error and leaves the store untouched. -/
theorem c3_witness :
    generateEndpoint stC3 inpZeroHours = (stC3, GenResult.configError) :=
  (c3_config_error_truncated_hours stC3 inpZeroHours rfl).2 (by
    have hr : List.range 7 = [0, 1, 2, 3, 4, 5, 6] := rfl
    norm_num [totalWeeklyHours, jsTrunc, inpZeroHours, hr])

/-- Claim C10, confirmed: when the plan exists, the hours check passes and the
plan has zero topics, `generate` deletes every stored session, commits, and
returns the success-style no-topics response. -/
theorem c10_empty_topics_wipes_sessions (st : GenStore) (inp : GenInput)
    (hf : st.planFound = true) (hh : totalWeeklyHours inp.P.hours ≠ 0)
    (ht : inp.allTopics = []) :
    generateEndpoint st inp = ({ st with sessions := [] }, .noTopics) := by
  unfold generateEndpoint
  rw [if_neg (by rw [hf]; simp), if_neg hh, if_pos ht]

/-- Claim C10, witness: a store holding one session loses it when `generate`
runs on a plan with no topics. -/
theorem c10_witness :
    generateEndpoint stC3 inpC10 = (⟨true, []⟩, GenResult.noTopics) :=
  c10_empty_topics_wipes_sessions stC3 inpC10 rfl (by
    have hr : List.range 7 = [0, 1, 2, 3, 4, 5, 6] := rfl
    norm_num [totalWeeklyHours, jsTrunc, inpC10, hr]) rfl

theorem dedupById_sublist_aux :
    ∀ (n : ℕ) (l : List Topic), l.length ≤ n → (dedupById l).Sublist l := by
  intro n
  induction n with
  | zero =>
    intro l hl
    rw [Nat.le_zero, List.length_eq_zero] at hl
    subst hl
    simp [dedupById]
  | succ n ih =>
    intro l hl
    cases l with
    | nil => simp [dedupById]
    | cons t rest =>
      rw [dedupById]
      refine List.Sublist.cons₂ t ?_
      refine List.Sublist.trans ?_ (@List.filter_sublist Topic (fun u => u.id != t.id) rest)
      refine ih _ ?_
      have := List.length_filter_le (fun u => u.id != t.id) rest
      simp only [List.length_cons] at hl
      omega

theorem dedupById_sublist (l : List Topic) : (dedupById l).Sublist l :=
  dedupById_sublist_aux l.length l le_rfl

theorem dedupById_id_nodup_aux :
    ∀ (n : ℕ) (l : List Topic), l.length ≤ n → ((dedupById l).map (·.id)).Nodup := by
  intro n
  induction n with
  | zero =>
    intro l hl
    rw [Nat.le_zero, List.length_eq_zero] at hl
    subst hl
    simp [dedupById]
  | succ n ih =>
    intro l hl
    cases l with
    | nil => simp [dedupById]
    | cons t rest =>
      rw [dedupById, List.map_cons, List.nodup_cons]
      have hlen : (rest.filter (fun u => u.id != t.id)).length ≤ n := by
        have := List.length_filter_le (fun u => u.id != t.id) rest
        simp only [List.length_cons] at hl
        omega
      refine ⟨?_, ih _ hlen⟩
      intro hmem
      rw [List.mem_map] at hmem
      obtain ⟨u, hu, hid⟩ := hmem
      have hu' : u ∈ rest.filter (fun v => v.id != t.id) :=
        (dedupById_sublist _).mem hu
      rw [List.mem_filter] at hu'
      rw [bne_iff_ne] at hu'
      exact hu'.2 hid

theorem dedupById_id_nodup (l : List Topic) : ((dedupById l).map (·.id)).Nodup :=
  dedupById_id_nodup_aux l.length l le_rfl

theorem dedupById_id_mem_aux :
    ∀ (n : ℕ) (l : List Topic), l.length ≤ n →
    ∀ x, x ∈ (dedupById l).map (·.id) ↔ x ∈ l.map (·.id) := by
  intro n
  induction n with
  | zero =>
    intro l hl x
    rw [Nat.le_zero, List.length_eq_zero] at hl
    subst hl
    simp [dedupById]
  | succ n ih =>
    intro l hl x
    cases l with
    | nil => simp [dedupById]
    | cons t rest =>
      have hlen : (rest.filter (fun u => u.id != t.id)).length ≤ n := by
        have := List.length_filter_le (fun u => u.id != t.id) rest
        simp only [List.length_cons] at hl
        omega
      rw [dedupById, List.map_cons, List.map_cons, List.mem_cons, List.mem_cons,
        ih _ hlen x]
      by_cases hx : x = t.id
      · simp [hx]
      · simp only [hx, false_or]
        constructor
        · intro hmem
          rw [List.mem_map] at hmem
          obtain ⟨u, hu, hid⟩ := hmem
          rw [List.mem_filter] at hu
          exact List.mem_map.mpr ⟨u, hu.1, hid⟩
        · intro hmem
          rw [List.mem_map] at hmem
          obtain ⟨u, hu, hid⟩ := hmem
          refine List.mem_map.mpr ⟨u, ?_, hid⟩
          rw [List.mem_filter, bne_iff_ne]
          exact ⟨hu, fun hc => hx (by rw [← hid, hc])⟩

theorem dedupById_id_mem (l : List Topic) (x : ℕ) :
    x ∈ (dedupById l).map (·.id) ↔ x ∈ l.map (·.id) :=
  dedupById_id_mem_aux l.length l le_rfl x

theorem weightedTopics_mem (pending : List Topic)
    (hpr : ∀ t ∈ pending, 1 ≤ t.priority) :
    ∀ t, t ∈ weightedTopics pending ↔ t ∈ pending := by
  intro t
  unfold weightedTopics
  rw [List.mem_flatMap]
  constructor
  · rintro ⟨u, hu, hmem⟩
    rw [List.mem_replicate] at hmem
    rw [hmem.2]
    exact hu
  · intro ht
    refine ⟨t, ht, ?_⟩
    rw [List.mem_replicate]
    exact ⟨by have := hpr t ht; omega, rfl⟩

theorem buildAgenda_countNT (inp : GenInput) (tid : ℕ) :
    countNewTopicFor (buildAgenda inp) tid =
      countNewTopicFor (genNewTopicResult inp).1 tid := by
  have h4 : countNewTopicFor (genStage4 inp) tid =
      countNewTopicFor (genStage3 inp) tid := by
    unfold genStage4
    split_ifs
    · obtain ⟨out, ho, hq⟩ := basicMockPhase_addsOnly inp.P (genMaintenanceStart inp)
        (genStage3 inp)
      rw [ho, countNewTopicFor_append, countNewTopicFor_nonNovo out tid
        (fun s hs => by rw [(hq s hs).2.1]; simp)]
      omega
    · rfl
  have h3 : countNewTopicFor (genStage3 inp) tid =
      countNewTopicFor (genNewTopicResult inp).1 tid := by
    unfold genStage3
    split_ifs
    · unfold directedMockPhase
      obtain ⟨out, cur, ho, _, hq⟩ := directedFold_addsOnly inp.P
        (fun nm => numGroups (completedCountFor inp.allTopics nm))
        (subjectsReadyForSim inp.allTopics) (genNewTopicResult inp).1
        (genMaintenanceStart inp)
      rw [ho]
      dsimp only
      rw [countNewTopicFor_append, countNewTopicFor_nonNovo out tid
        (fun s hs => by rw [(hq s hs).2.1]; simp)]
      omega
    · rfl
  unfold buildAgenda
  split_ifs
  · obtain ⟨out, ho, hq⟩ := recurringMockLoop_addsOnly inp.P 20
      (genMaintenanceStart inp + 5) (genStage4 inp)
    rw [ho, countNewTopicFor_append, countNewTopicFor_nonNovo out tid
      (fun s hs => by rw [(hq s hs).2.1]; simp), h4, h3]
    omega
  · rw [h4, h3]

/-- Claim C8, confirmed: the weighted, shuffled list is de-duplicated preserving
first occurrence (a sublist with distinct ids whose members are exactly the
pending topics), each pending topic receives at most one 'Novo Tópico'
session, and exactly one when the loop exhausts no capacity (it processes
the whole list). -/
theorem c8_unique_introduction (inp : GenInput)
    (hperm : inp.shuffled.Perm (weightedTopics (pendingTopics inp)))
    (hnd : ((pendingTopics inp).map (·.id)).Nodup)
    (hpr : ∀ t ∈ pendingTopics inp, 1 ≤ t.priority) :
    (∀ t ∈ pendingTopics inp, countNewTopicFor (buildAgenda inp) t.id ≤ 1)
    ∧ ((genNewTopicResult inp).2.2 = [] →
        ∀ t ∈ pendingTopics inp, countNewTopicFor (buildAgenda inp) t.id = 1)
    ∧ (dedupById inp.shuffled).Sublist inp.shuffled
    ∧ ((dedupById inp.shuffled).map (·.id)).Nodup
    ∧ (∀ t, t ∈ dedupById inp.shuffled ↔ t ∈ pendingTopics inp) := by
  have hmem : ∀ t, t ∈ dedupById inp.shuffled ↔ t ∈ pendingTopics inp := by
    intro t
    constructor
    · intro ht
      have h1 : t ∈ inp.shuffled := (dedupById_sublist _).mem ht
      have h2 : t ∈ weightedTopics (pendingTopics inp) := hperm.mem_iff.mp h1
      exact (weightedTopics_mem _ hpr t).mp h2
    · intro ht
      have h1 : t ∈ inp.shuffled :=
        hperm.mem_iff.mpr ((weightedTopics_mem _ hpr t).mpr ht)
      have h2 : t.id ∈ (dedupById inp.shuffled).map (·.id) := by
        rw [dedupById_id_mem]
        exact List.mem_map.mpr ⟨t, h1, rfl⟩
      rw [List.mem_map] at h2
      obtain ⟨u, hu, hid⟩ := h2
      have hu2 : u ∈ pendingTopics inp := by
        have : u ∈ inp.shuffled := (dedupById_sublist _).mem hu
        exact (weightedTopics_mem _ hpr u).mp (hperm.mem_iff.mp this)
      have : u = t := List.inj_on_of_nodup_map hnd hu2 ht hid
      rw [← this]
      exact hu
  obtain ⟨pre, hpre, hcnt⟩ := newTopicLoop_countNT inp.P (dedupById inp.shuffled)
    inp.P.today none (completedReviewsPhase inp.P inp.completedTopics (essayPhase inp.P []))
    (dedupById_id_nodup _)
  have hbase : ∀ tid, countNewTopicFor (completedReviewsPhase inp.P inp.completedTopics
      (essayPhase inp.P [])) tid = 0 := by
    intro tid
    obtain ⟨o1, ho1, hq1, _⟩ := essayPhase_addsOnly inp.P []
    obtain ⟨o2, ho2, hq2⟩ := completedReviewsPhase_addsOnly inp.P inp.completedTopics
      (essayPhase inp.P [])
    rw [ho2, ho1, List.nil_append, countNewTopicFor_append,
      countNewTopicFor_nonNovo o1 tid (fun s hs => by rw [(hq1 s hs).2.1]; simp),
      countNewTopicFor_nonNovo o2 tid (fun s hs => by
        obtain ⟨_, ⟨k, _, hk, _⟩, _⟩ := hq2 s hs
        rw [hk]; simp)]
  have hstage2 : ∀ tid, countNewTopicFor (genNewTopicResult inp).1 tid =
      (if tid ∈ pre.map (·.id) then 1 else 0) := by
    intro tid
    have := hcnt tid
    rw [hbase tid] at this
    rw [genNewTopicResult]
    omega
  refine ⟨?_, ?_, dedupById_sublist _, dedupById_id_nodup _, hmem⟩
  · intro t _
    rw [buildAgenda_countNT, hstage2]
    split_ifs <;> omega
  · intro hrem t ht
    rw [buildAgenda_countNT, hstage2, if_pos]
    rw [genNewTopicResult] at hrem
    rw [hrem, List.append_nil] at hpre
    rw [← hpre]
    rw [List.mem_map]
    exact ⟨t, (hmem t).mpr ht, rfl⟩

/-- Claim C8, witness: the single pending topic of `inpC8` is introduced at most
once. -/
theorem c8_witness : countNewTopicFor (buildAgenda inpC8) 1 ≤ 1 :=
  (c8_unique_introduction inpC8 (List.Perm.refl _) (by decide) (by decide)).1
    ⟨1, "Mat", 1, false⟩ (by decide)

/-- Claim C6, amended: the basic full-mock phase is gated by zero pending topics
and ≥95% completed coverage (not by a ≥3-completed-topics threshold); when
its gate holds it adds exactly one 'Simulado Completo' session at the first
available slot on/after `maintenanceStart + 7`, and adds nothing when the
gate fails or no slot remains. -/
theorem c6_basic_mock_gating (inp : GenInput) :
    (pendingTopics inp = [] → genSimGate inp = true →
      (∀ d, findNextAvailableSlot inp.P (genStage3 inp)
          (genMaintenanceStart inp + 7) false = some d →
        genStage4 inp = genStage3 inp ++ [⟨none, .simuladoCompleto, d⟩] ∧
        genMaintenanceStart inp + 7 ≤ d ∧ d ≤ inp.P.examDate ∧
        agCount (genStage3 inp) d < maxSessionsOn inp.P d ∧
        (∀ d', genMaintenanceStart inp + 7 ≤ d' → d' < d →
          0 < inp.P.hours (d' % 7) →
          maxSessionsOn inp.P d' ≤ agCount (genStage3 inp) d')) ∧
      (findNextAvailableSlot inp.P (genStage3 inp)
          (genMaintenanceStart inp + 7) false = none →
        genStage4 inp = genStage3 inp))
    ∧ (genSimGate inp = false → genStage4 inp = genStage3 inp)
    ∧ (genSimGate inp = true ↔
        (pendingTopics inp = [] ∧
          (95 : ℚ) / 100 ≤ (inp.completedTopics.length : ℚ) /
            (inp.allTopics.length : ℚ))) := by
  refine ⟨?_, ?_, ?_⟩
  · intro hp hg
    constructor
    · intro d hslot
      obtain ⟨h1, h2, _, _, h5, h6⟩ := findNextAvailableSlot_spec hslot
      have hs4 : genStage4 inp = genStage3 inp ++ [⟨none, .simuladoCompleto, d⟩] := by
        unfold genStage4
        rw [if_pos ⟨hp, hg⟩]
        unfold basicMockPhase
        rw [hslot]
        rfl
      exact ⟨hs4, h1, h2, h5, fun d' ha hb hc => h6 d' ha hb (by simp) hc⟩
    · intro hslot
      unfold genStage4
      rw [if_pos ⟨hp, hg⟩]
      unfold basicMockPhase
      rw [hslot]
  · intro hg
    unfold genStage4
    rw [if_neg]
    rintro ⟨_, hc⟩
    rw [hg] at hc
    exact Bool.false_ne_true hc
  · unfold genSimGate
    rw [Bool.and_eq_true, decide_eq_true_iff, decide_eq_true_iff]

/-- Claim C6, witness: with pending topics remaining the gate is closed and the
basic full-mock phase adds nothing. -/
theorem c6_witness : genStage4 inpC1 = genStage3 inpC1 :=
  (c6_basic_mock_gating inpC1).2.1 (by decide)

/-- Claim C6, counterexample: a plan with a single completed topic (fewer than 3)
still receives the basic full mock: the ≥3 threshold of the claim does not
gate the code. -/
theorem c6_counterexample :
    inpC6.completedTopics.length = 1 ∧
    genStage4 inpC6 = genStage3 inpC6 ++ [⟨none, SType.simuladoCompleto, 58⟩] := by
  have hr : List.range (60 + 1 - 58) = [0, 1, 2] := rfl
  have hstage3 : genStage3 inpC6 = [] := by
    norm_num [genStage3, genSimGate, pendingTopics, inpC6, genNewTopicResult,
      newTopicLoop, dedupById, essayPhase, completedReviewsPhase, offsets,
      completedReviewStep, directedMockPhase, subjectsReadyForSim, dedupNames,
      completedCountFor, List.insertionSort, genMaintenanceStart]
  refine ⟨rfl, ?_⟩
  rw [hstage3]
  have hgate : genSimGate inpC6 = true := by
    norm_num [genSimGate, pendingTopics, inpC6]
  have hmaint : genMaintenanceStart inpC6 = 51 := by
    norm_num [genMaintenanceStart, genNewTopicResult, inpC6, newTopicLoop,
      dedupById, essayPhase, completedReviewsPhase, offsets, completedReviewStep]
  unfold genStage4
  rw [if_pos ⟨by norm_num [pendingTopics, inpC6], hgate⟩, hstage3, hmaint]
  unfold basicMockPhase
  have hslot : findNextAvailableSlot inpC6.P [] (51 + 7) false = some 58 := by
    norm_num [findNextAvailableSlot, getAvailableDates, hr, inpC6, maxSessionsOn,
      agCount, List.filterMap_cons, List.find?]
  rw [hslot]
  rfl

theorem reviewSessionsFor_append (a b : Agenda) (tid k : ℕ) :
    reviewSessionsFor (a ++ b) tid k =
      reviewSessionsFor a tid k ++ reviewSessionsFor b tid k := by
  unfold reviewSessionsFor
  rw [List.filter_append]

theorem reviewSessionsFor_eq_nil (out : Agenda) (tid k : ℕ)
    (h : ∀ s ∈ out, ¬(s.topicId = some tid ∧ s.sType = SType.revisao k)) :
    reviewSessionsFor out tid k = [] := by
  unfold reviewSessionsFor
  rw [List.filter_eq_nil_iff]
  intro s hs hb
  rw [Bool.and_eq_true, beq_iff_eq, beq_iff_eq] at hb
  exact h s hs hb

theorem reviewSessionsFor_single_hit (tid k : ℕ) (s : ℕ) :
    reviewSessionsFor [⟨some tid, .revisao k, s⟩] tid k =
      [⟨some tid, .revisao k, s⟩] := by
  unfold reviewSessionsFor
  rw [List.filter_singleton]
  have hb : (({ topicId := some tid, sType := SType.revisao k, date := s } :
      Session).topicId == some tid &&
      ({ topicId := some tid, sType := SType.revisao k, date := s } :
        Session).sType == SType.revisao k) = true := by
    simp
  rw [hb]
  rfl

theorem stage2_of_topicId (inp : GenInput) :
    ∀ s ∈ buildAgenda inp, s.topicId ≠ none → s ∈ (genNewTopicResult inp).1 := by
  intro s hs hnone
  have h4 : ∀ x ∈ genStage4 inp, x.topicId ≠ none → x ∈ genStage3 inp := by
    intro x hx hn
    unfold genStage4 at hx
    split_ifs at hx
    · obtain ⟨out, ho, hq⟩ := basicMockPhase_addsOnly inp.P (genMaintenanceStart inp)
        (genStage3 inp)
      rw [ho] at hx
      rcases List.mem_append.mp hx with h | h
      · exact h
      · exact absurd ((hq x h).1) hn
    · exact hx
  have h3 : ∀ x ∈ genStage3 inp, x.topicId ≠ none → x ∈ (genNewTopicResult inp).1 := by
    intro x hx hn
    unfold genStage3 at hx
    split_ifs at hx
    · unfold directedMockPhase at hx
      obtain ⟨out, cur, ho, _, hq⟩ := directedFold_addsOnly inp.P
        (fun nm => numGroups (completedCountFor inp.allTopics nm))
        (subjectsReadyForSim inp.allTopics) (genNewTopicResult inp).1
        (genMaintenanceStart inp)
      rw [ho] at hx
      dsimp only at hx
      rcases List.mem_append.mp hx with h | h
      · exact h
      · exact absurd ((hq x h).1) hn
    · exact hx
  unfold buildAgenda at hs
  split_ifs at hs
  · obtain ⟨out, ho, hq⟩ := recurringMockLoop_addsOnly inp.P 20
      (genMaintenanceStart inp + 5) (genStage4 inp)
    rw [ho] at hs
    rcases List.mem_append.mp hs with h | h
    · exact h3 s (h4 s h hnone) hnone
    · exact absurd ((hq s h).1) hnone
  · exact h3 s (h4 s hs hnone) hnone

theorem reviewSessionsFor_buildAgenda_eq_stage2 (inp : GenInput) (tid k : ℕ)
    (hsh : tid ∉ inp.shuffled.map (·.id)) :
    reviewSessionsFor (buildAgenda inp) tid k =
      reviewSessionsFor (completedReviewsPhase inp.P inp.completedTopics
        (essayPhase inp.P [])) tid k := by
  have hfail : ∀ (out : Agenda), (∀ s ∈ out, s.topicId = none) →
      reviewSessionsFor out tid k = [] := by
    intro out h
    refine reviewSessionsFor_eq_nil out tid k ?_
    rintro s hs ⟨h1, _⟩
    rw [h s hs] at h1
    exact Option.noConfusion h1
  have h4 : reviewSessionsFor (genStage4 inp) tid k =
      reviewSessionsFor (genStage3 inp) tid k := by
    unfold genStage4
    split_ifs
    · obtain ⟨out, ho, hq⟩ := basicMockPhase_addsOnly inp.P (genMaintenanceStart inp)
        (genStage3 inp)
      rw [ho, reviewSessionsFor_append, hfail out (fun s hs => (hq s hs).1),
        List.append_nil]
    · rfl
  have h3 : reviewSessionsFor (genStage3 inp) tid k =
      reviewSessionsFor (genNewTopicResult inp).1 tid k := by
    unfold genStage3
    split_ifs
    · unfold directedMockPhase
      obtain ⟨out, cur, ho, _, hq⟩ := directedFold_addsOnly inp.P
        (fun nm => numGroups (completedCountFor inp.allTopics nm))
        (subjectsReadyForSim inp.allTopics) (genNewTopicResult inp).1
        (genMaintenanceStart inp)
      rw [ho]
      dsimp only
      rw [reviewSessionsFor_append, hfail out (fun s hs => (hq s hs).1),
        List.append_nil]
    · rfl
  have h2 : reviewSessionsFor (genNewTopicResult inp).1 tid k =
      reviewSessionsFor (completedReviewsPhase inp.P inp.completedTopics
        (essayPhase inp.P [])) tid k := by
    unfold genNewTopicResult
    obtain ⟨out, ho, hq⟩ := newTopicLoop_addsOwn inp.P (dedupById inp.shuffled)
      inp.P.today none (completedReviewsPhase inp.P inp.completedTopics
        (essayPhase inp.P []))
    rw [ho, reviewSessionsFor_append, reviewSessionsFor_eq_nil out tid k ?_,
      List.append_nil]
    rintro s hs ⟨h1, _⟩
    obtain ⟨u, hu, hid⟩ := hq s hs
    rw [h1] at hid
    rw [Option.some_inj] at hid
    refine hsh ?_
    rw [List.mem_map]
    refine ⟨u, (dedupById_sublist _).mem hu, hid.symm⟩
  unfold buildAgenda
  split_ifs
  · obtain ⟨out, ho, hq⟩ := recurringMockLoop_addsOnly inp.P 20
      (genMaintenanceStart inp + 5) (genStage4 inp)
    rw [ho, reviewSessionsFor_append, hfail out (fun s hs => (hq s hs).1),
      List.append_nil, h4, h3, h2]
  · rw [h4, h3, h2]

theorem reviewSessionsFor_crp_split (P : GenParams) (ts1 ts2 : List CompletedTopic)
    (t : CompletedTopic) (ks1 ks2 : List ℕ) (k : ℕ) (base : Agenda)
    (hks : offsets = ks1 ++ k :: ks2)
    (hid : t.id ∉ (ts1 ++ ts2).map (·.id))
    (hk1 : k ∉ ks1) (hk2 : k ∉ ks2)
    (hbase : ∀ s ∈ base, s.topicId = none) :
    reviewSessionsFor (completedReviewsPhase P (ts1 ++ t :: ts2) base) t.id k =
      reviewSessionsFor (completedReviewStep P t k
        (ks1.foldl (fun a k' => completedReviewStep P t k' a)
          (completedReviewsPhase P ts1 base))) t.id k ∧
    reviewSessionsFor (ks1.foldl (fun a k' => completedReviewStep P t k' a)
        (completedReviewsPhase P ts1 base)) t.id k = [] := by
  have hmem_id : ∀ (u : CompletedTopic), u ∈ ts1 ∨ u ∈ ts2 → u.id ≠ t.id := by
    intro u hu hc
    refine hid ?_
    rw [List.mem_map]
    exact ⟨u, List.mem_append.mpr (by tauto), hc⟩
  have hfail_topics : ∀ (ks : List ℕ) (ts : List CompletedTopic),
      (∀ u ∈ ts, u.id ≠ t.id) → ∀ (ag : Agenda),
      reviewSessionsFor (ts.foldl
        (fun a u => ks.foldl (fun a2 k' => completedReviewStep P u k' a2) a) ag)
        t.id k = reviewSessionsFor ag t.id k := by
    intro ks ts hts ag
    have hstep : ∀ u ∈ ts, ∀ a, ∃ out,
        ks.foldl (fun a2 k' => completedReviewStep P u k' a2) a = a ++ out ∧
        ∀ s ∈ out, ∃ v ∈ ts, s.topicId = some v.id := by
      intro u hu a
      have : ∀ k' ∈ ks, ∀ a2, ∃ out,
          completedReviewStep P u k' a2 = a2 ++ out ∧
          ∀ s ∈ out, ∃ v ∈ ts, s.topicId = some v.id := by
        intro k' _ a2
        obtain ⟨out, ho, hq⟩ := completedReviewStep_addsOnly P u k' a2
        exact ⟨out, ho, fun s hs => ⟨u, hu, (hq s hs).1⟩⟩
      exact addsOnly_foldl this a
    obtain ⟨out, ho, hq⟩ := addsOnly_foldl hstep ag
    rw [ho, reviewSessionsFor_append, reviewSessionsFor_eq_nil out _ _ ?_,
      List.append_nil]
    rintro s hs ⟨h1, _⟩
    obtain ⟨v, hv, hsid⟩ := hq s hs
    rw [h1] at hsid
    rw [Option.some_inj] at hsid
    exact hts v hv hsid.symm
  have hfail_ks : ∀ (ks : List ℕ), k ∉ ks → ∀ (ag : Agenda),
      reviewSessionsFor (ks.foldl (fun a k' => completedReviewStep P t k' a) ag) t.id k =
        reviewSessionsFor ag t.id k := by
    intro ks hkn ag
    have : ∀ k' ∈ ks, ∀ a, ∃ out,
        completedReviewStep P t k' a = a ++ out ∧ ∀ s ∈ out,
          s.topicId = some t.id ∧ ∃ kk ∈ ks, s.sType = .revisao kk := by
      intro k' hk' a
      obtain ⟨out, ho, hq⟩ := completedReviewStep_addsOnly P t k' a
      exact ⟨out, ho, fun s hs => ⟨(hq s hs).1, k', hk', (hq s hs).2.1⟩⟩
    obtain ⟨out, ho, hq⟩ := addsOnly_foldl this ag
    rw [ho, reviewSessionsFor_append, reviewSessionsFor_eq_nil out _ _ ?_,
      List.append_nil]
    rintro s hs ⟨_, h2⟩
    obtain ⟨_, kk, hkk, hsk⟩ := hq s hs
    rw [h2] at hsk
    have : k = kk := by injection hsk
    rw [this] at hkn
    exact hkn hkk
  have hbase0 : reviewSessionsFor base t.id k = [] := by
    refine reviewSessionsFor_eq_nil base _ _ ?_
    rintro s hs ⟨h1, _⟩
    rw [hbase s hs] at h1
    exact Option.noConfusion h1
  have hB : reviewSessionsFor (ks1.foldl (fun a k' => completedReviewStep P t k' a)
      (completedReviewsPhase P ts1 base)) t.id k = [] := by
    rw [hfail_ks ks1 hk1]
    unfold completedReviewsPhase
    rw [hfail_topics offsets ts1 (fun u hu => hmem_id u (Or.inl hu))]
    exact hbase0
  refine ⟨?_, hB⟩
  unfold completedReviewsPhase
  rw [List.foldl_append, List.foldl_cons]
  rw [hfail_topics offsets ts2 (fun u hu => hmem_id u (Or.inr hu))]
  conv_lhs =>
    rw [hks]
  rw [List.foldl_append, List.foldl_cons]
  rw [hfail_ks ks2 hk2]
  rw [← hks]

/-- Claim C4, confirmed: for every completed topic and offset k ∈ {7,14,28} with
`today ≤ completionDate + k ≤ examDate`, the run places exactly one matching
review on the first Saturday on/after the target that has positive hours and
spare capacity at that point of the run, and places none otherwise (silently
dropped); and every review of an introduced topic falls on a Saturday at
least k days past its 'Novo Tópico' date and not past the exam date. -/
theorem c4_spaced_repetition_cascade (inp : GenInput)
    (ts1 ts2 : List CompletedTopic) (t : CompletedTopic)
    (ks1 ks2 : List ℕ) (k : ℕ)
    (hts : inp.completedTopics = ts1 ++ t :: ts2)
    (hks : offsets = ks1 ++ k :: ks2)
    (hid : t.id ∉ (ts1 ++ ts2).map (·.id))
    (hsh : t.id ∉ inp.shuffled.map (·.id)) :
    (¬(inp.P.today ≤ t.completionDate + k ∧ t.completionDate + k ≤ inp.P.examDate) →
      reviewSessionsFor (buildAgenda inp) t.id k = [])
    ∧ (∀ s, inp.P.today ≤ t.completionDate + k → t.completionDate + k ≤ inp.P.examDate →
        getNextSaturdayForReview inp.P (reviewAgendaBefore inp ts1 t ks1)
          (t.completionDate + k) = some s →
        reviewSessionsFor (buildAgenda inp) t.id k = [⟨some t.id, .revisao k, s⟩] ∧
        s % 7 = 6 ∧ t.completionDate + k ≤ s ∧ s ≤ inp.P.examDate ∧
        0 < inp.P.hours (s % 7) ∧
        agCount (reviewAgendaBefore inp ts1 t ks1) s < maxSessionsOn inp.P s ∧
        (∀ d, t.completionDate + k ≤ d → d < s → d % 7 = 6 →
          0 < inp.P.hours (d % 7) →
          maxSessionsOn inp.P d ≤ agCount (reviewAgendaBefore inp ts1 t ks1) d))
    ∧ (inp.P.today ≤ t.completionDate + k → t.completionDate + k ≤ inp.P.examDate →
        getNextSaturdayForReview inp.P (reviewAgendaBefore inp ts1 t ks1)
          (t.completionDate + k) = none →
        reviewSessionsFor (buildAgenda inp) t.id k = [] ∧
        (∀ d, t.completionDate + k ≤ d → d ≤ inp.P.examDate → d % 7 = 6 →
          0 < inp.P.hours (d % 7) →
          maxSessionsOn inp.P d ≤ agCount (reviewAgendaBefore inp ts1 t ks1) d))
    ∧ (∀ tid k' r n, tid ∉ inp.completedTopics.map (·.id) →
        r ∈ buildAgenda inp → n ∈ buildAgenda inp →
        r.topicId = some tid → n.topicId = some tid →
        r.sType = .revisao k' → n.sType = .novoTopico →
        r.date % 7 = 6 ∧ n.date + k' ≤ r.date ∧ r.date ≤ inp.P.examDate) := by
  have hnodup_off : (ks1 ++ k :: ks2).Nodup := by
    rw [← hks]
    decide
  have hk1 : k ∉ ks1 := by
    intro hc
    exact (List.disjoint_of_nodup_append hnodup_off) hc (List.mem_cons_self k ks2)
  have hk2 : k ∉ ks2 := by
    have h2 := (List.nodup_append.mp hnodup_off).2.1
    rw [List.nodup_cons] at h2
    exact h2.1
  obtain ⟨baseOut, hbo, hbq, _⟩ := essayPhase_addsOnly inp.P []
  have hbase : ∀ s ∈ essayPhase inp.P [], s.topicId = none := by
    intro s hs
    rw [hbo, List.nil_append] at hs
    exact (hbq s hs).1
  obtain ⟨hsplit1, hsplit2⟩ := reviewSessionsFor_crp_split inp.P ts1 ts2 t ks1 ks2 k
    (essayPhase inp.P []) hks hid hk1 hk2 hbase
  have hmain : reviewSessionsFor (buildAgenda inp) t.id k =
      reviewSessionsFor (completedReviewStep inp.P t k
        (reviewAgendaBefore inp ts1 t ks1)) t.id k := by
    rw [reviewSessionsFor_buildAgenda_eq_stage2 inp t.id k hsh, hts]
    exact hsplit1
  have hAB : reviewSessionsFor (reviewAgendaBefore inp ts1 t ks1) t.id k = [] :=
    hsplit2
  refine ⟨?_, ?_, ?_, ?_⟩
  · intro hguard
    rw [hmain]
    unfold completedReviewStep
    rw [if_neg hguard]
    exact hAB
  · intro s h1 h2 hsat
    obtain ⟨hp1, hp2, hp3, hp4, hp5, hp6⟩ := getNextSaturdayForReview_spec hsat
    refine ⟨?_, hp3, hp1, hp2, hp4, hp5, hp6⟩
    rw [hmain]
    unfold completedReviewStep
    rw [if_pos ⟨h1, h2⟩, hsat]
    unfold addSessionToAgenda
    rw [reviewSessionsFor_append, hAB, List.nil_append]
    exact reviewSessionsFor_single_hit t.id k s
  · intro h1 h2 hsat
    refine ⟨?_, getNextSaturdayForReview_none hsat⟩
    rw [hmain]
    unfold completedReviewStep
    rw [if_pos ⟨h1, h2⟩, hsat]
    exact hAB
  · intro tid k' r n htid hr hn hrt hnt hrk hnn
    have hrs : r ∈ (genNewTopicResult inp).1 :=
      stage2_of_topicId inp r hr (by rw [hrt]; exact Option.noConfusion)
    have hns : n ∈ (genNewTopicResult inp).1 :=
      stage2_of_topicId inp n hn (by rw [hnt]; exact Option.noConfusion)
    rw [genNewTopicResult] at hrs hns
    refine newTopicLoop_pairing inp.P (dedupById inp.shuffled) inp.P.today none
      (completedReviewsPhase inp.P inp.completedTopics (essayPhase inp.P []))
      tid k' (dedupById_id_nodup _) ?_ r n hrs hns hrt hnt hrk hnn
    intro s hs hc
    obtain ⟨out, ho, hq⟩ := completedReviewsPhase_addsOnly inp.P inp.completedTopics
      (essayPhase inp.P [])
    rw [ho] at hs
    rcases List.mem_append.mp hs with h | h
    · rw [hbase s h] at hc
      exact Option.noConfusion hc
    · obtain ⟨⟨u, hu, hsid⟩, _, _⟩ := hq s h
      rw [hc] at hsid
      rw [Option.some_inj] at hsid
      refine htid ?_
      rw [List.mem_map]
      exact ⟨u, hu, hsid.symm⟩

/-- Claim C4, witness: the 7-day review of a topic completed on day 40 with exam
on day 30 targets day 47, outside the window, so no review is created. -/
theorem c4_witness : reviewSessionsFor (buildAgenda inpC4) 1 7 = [] :=
  (c4_spaced_repetition_cascade inpC4 [] [] ⟨1, 40⟩ [] [14, 28] 7 rfl rfl
    (by decide) (by decide)).1 (by decide)

/-- Claim C2, code bug: the preview simulation accepts Sundays with positive
hours while the commit path skips Sundays unconditionally; on a Sunday
`today` with 1 hour on every day, the preview moves the overdue session to
day 7 (the Sunday) but the commit moves it to day 8. The postponement
counter still rises by exactly 1. -/
theorem c2_preview_commit_divergence :
    ((previewEndpoint prC2 stC2).2.replanPreview.map (·.newDate)) = [7] ∧
    ((commitEndpoint prC2 stC2).sessions.map (·.date)) = [8] ∧
    (commitEndpoint prC2 stC2).postponement = stC2.postponement + 1 := by
  have hov : overdueSessions prC2 stC2 = [⟨1, 3, true⟩] := by
    norm_num [overdueSessions, prC2, stC2, List.insertionSort]
  have hslot : previewFindSlot prC2 (initialCounts prC2 stC2) 7 = some 7 := by
    rw [previewFindSlot.eq_def]
    norm_num [prC2, initialCounts, countOnDate, stC2]
  have hcs : commitFindSlot prC2 stC2.sessions 7 = some 8 := by
    rw [commitFindSlot.eq_def]
    norm_num [prC2]
    rw [commitFindSlot.eq_def]
    norm_num [prC2, countOnDate, stC2]
  refine ⟨?_, ?_, ?_⟩
  · norm_num [previewEndpoint, previewEntries, previewLoop, hov]
    rw [show prC2.today = 7 from rfl, hslot]
    rfl
  · norm_num [commitEndpoint, commitLoop, hov]
    rw [show prC2.today = 7 from rfl, hcs]
    norm_num [setSessionDate, stC2]
  · norm_num [commitEndpoint, commitLoop, hov]

theorem previewFindSlot_spec_aux (P : RParams) (counts : ℕ → ℕ) :
    ∀ (fuel cur d : ℕ), P.examDate + 1 - cur ≤ fuel →
    previewFindSlot P counts cur = some d →
    cur ≤ d ∧ d ≤ P.examDate ∧ 0 < P.hours (d % 7) := by
  intro fuel
  induction fuel with
  | zero =>
    intro cur d hf h
    rw [previewFindSlot.eq_def] at h
    rw [if_pos (by omega)] at h
    exact Option.noConfusion h
  | succ fuel ih =>
    intro cur d hf h
    rw [previewFindSlot.eq_def] at h
    by_cases he : P.examDate < cur
    · rw [if_pos he] at h
      exact Option.noConfusion h
    · rw [if_neg he] at h
      split_ifs at h with hc
      · rw [Option.some_inj] at h
        subst h
        exact ⟨le_rfl, by omega, hc.1⟩
      · obtain ⟨h1, h2, h3⟩ := ih (cur + 1) d (by omega) h
        exact ⟨by omega, h2, h3⟩

theorem previewFindSlot_spec {P : RParams} {counts : ℕ → ℕ} {cur d : ℕ}
    (h : previewFindSlot P counts cur = some d) :
    cur ≤ d ∧ d ≤ P.examDate ∧ 0 < P.hours (d % 7) :=
  previewFindSlot_spec_aux P counts (P.examDate + 1 - cur) cur d le_rfl h

theorem previewLoop_past_exam (P : RParams) :
    ∀ (l : List RSession) (counts : ℕ → ℕ) (cur : ℕ), P.examDate < cur →
    previewLoop P l counts cur = [] := by
  intro l
  induction l with
  | nil => intro counts cur _; rfl
  | cons s rest ih =>
    intro counts cur hcur
    rw [previewLoop]
    rw [show previewFindSlot P counts cur = none from by
      rw [previewFindSlot.eq_def, if_pos hcur]]
    exact ih counts _ (by omega)

theorem previewLoop_sublist (P : RParams) :
    ∀ (l : List RSession) (counts : ℕ → ℕ) (cur : ℕ),
    ((previewLoop P l counts cur).map (fun e => (e.sessionId, e.originalDate))).Sublist
      (l.map (fun s => (s.id, s.date))) := by
  intro l
  induction l with
  | nil => intro counts cur; simp [previewLoop]
  | cons s rest ih =>
    intro counts cur
    rw [previewLoop]
    cases hslot : previewFindSlot P counts cur with
    | some d =>
      rw [List.map_cons, List.map_cons]
      exact List.Sublist.cons₂ _ (ih _ _)
    | none =>
      rw [List.map_cons]
      exact List.Sublist.cons _ (ih _ _)

theorem previewLoop_bounds (P : RParams) :
    ∀ (l : List RSession) (counts : ℕ → ℕ) (cur : ℕ), P.today ≤ cur →
    ∀ e ∈ previewLoop P l counts cur,
      P.today ≤ e.newDate ∧ e.newDate ≤ P.examDate ∧ 0 < P.hours (e.newDate % 7) := by
  intro l
  induction l with
  | nil => intro counts cur _ e he; simp [previewLoop] at he
  | cons s rest ih =>
    intro counts cur hcur e he
    rw [previewLoop] at he
    revert he
    cases hslot : previewFindSlot P counts cur with
    | some d =>
      intro he
      obtain ⟨h1, h2, h3⟩ := previewFindSlot_spec hslot
      rcases List.mem_cons.mp he with rfl | he2
      · exact ⟨by dsimp only; omega, by dsimp only; exact h2, by dsimp only; exact h3⟩
      · exact ih _ d (by omega) e he2
    | none =>
      intro he
      rw [previewLoop_past_exam P rest counts (P.examDate + 1) (by omega)] at he
      exact absurd he (List.not_mem_nil e)

/-- Claim C7, amended: the preview computes one entry per overdue pending session
that can still be placed before the exam date, in (original date, id) order
with real placements, but the response's `replanPreview` is truncated to the
first 5 entries (`totalToReplan` reports the full number), and the handler
writes nothing. -/
theorem c7_preview_truncated_to_five (P : RParams) (st : RStore) :
    (previewEndpoint P st).1 = st
    ∧ (previewEndpoint P st).2.hasOverdue = !(overdueSessions P st).isEmpty
    ∧ (previewEndpoint P st).2.count = (overdueSessions P st).length
    ∧ (previewEndpoint P st).2.totalToReplan = (previewEntries P st).length
    ∧ (previewEndpoint P st).2.replanPreview = (previewEntries P st).take 5
    ∧ ((previewEntries P st).map (fun e => (e.sessionId, e.originalDate))).Sublist
        ((overdueSessions P st).map (fun s => (s.id, s.date)))
    ∧ (previewEntries P st).Pairwise (fun a b =>
        a.originalDate < b.originalDate ∨
        (a.originalDate = b.originalDate ∧ a.sessionId ≤ b.sessionId))
    ∧ (∀ e ∈ previewEntries P st,
        P.today ≤ e.newDate ∧ e.newDate ≤ P.examDate ∧ 0 < P.hours (e.newDate % 7)) := by
  have hend : (previewEndpoint P st).1 = st ∧
      (previewEndpoint P st).2.hasOverdue = !(overdueSessions P st).isEmpty ∧
      (previewEndpoint P st).2.count = (overdueSessions P st).length ∧
      (previewEndpoint P st).2.totalToReplan = (previewEntries P st).length ∧
      (previewEndpoint P st).2.replanPreview = (previewEntries P st).take 5 := by
    unfold previewEndpoint
    by_cases hov : (overdueSessions P st).isEmpty
    · rw [if_pos hov]
      have hnil : overdueSessions P st = [] := List.isEmpty_iff.mp hov
      have hent : previewEntries P st = [] := by
        unfold previewEntries
        rw [hnil]
        rfl
      rw [hov, hnil, hent]
      exact ⟨rfl, rfl, rfl, rfl, rfl⟩
    · rw [if_neg hov]
      rw [Bool.not_eq_true] at hov
      rw [hov]
      exact ⟨rfl, rfl, rfl, rfl, rfl⟩
  have hsub := previewLoop_sublist P (overdueSessions P st) (initialCounts P st) P.today
  have hsorted : (overdueSessions P st).Pairwise overdueLe := by
    haveI : IsTotal RSession overdueLe := ⟨fun a b => by
      unfold overdueLe
      omega⟩
    haveI : IsTrans RSession overdueLe := ⟨fun a b c hab hbc => by
      unfold overdueLe at hab hbc ⊢
      omega⟩
    exact List.sorted_insertionSort overdueLe _
  have hpw : (previewEntries P st).Pairwise (fun a b =>
      a.originalDate < b.originalDate ∨
      (a.originalDate = b.originalDate ∧ a.sessionId ≤ b.sessionId)) := by
    have h1 : ((overdueSessions P st).map (fun s => (s.id, s.date))).Pairwise
        (fun x y => x.2 < y.2 ∨ (x.2 = y.2 ∧ x.1 ≤ y.1)) := by
      rw [List.pairwise_map]
      exact hsorted
    have h2 := List.Pairwise.sublist hsub h1
    rw [List.pairwise_map] at h2
    exact h2
  exact ⟨hend.1, hend.2.1, hend.2.2.1, hend.2.2.2.1, hend.2.2.2.2, hsub, hpw,
    previewLoop_bounds P (overdueSessions P st) (initialCounts P st) P.today le_rfl⟩

/-- Claim C7, counterexample: six overdue pending sessions are all placeable, yet
the response's `replanPreview` holds only 5 entries — not one per overdue
session as claimed. -/
theorem c7_counterexample :
    ((previewEndpoint prC7 stC7).2.replanPreview).length = 5 ∧
    (stC7.sessions.filter (fun s => s.pending && decide (s.date < prC7.today))).length
      = 6 := by
  have hov : overdueSessions prC7 stC7 =
      [⟨1, 1, true⟩, ⟨2, 2, true⟩, ⟨3, 3, true⟩, ⟨4, 4, true⟩,
        ⟨5, 5, true⟩, ⟨6, 6, true⟩] := by
    norm_num [overdueSessions, prC7, stC7, List.insertionSort]
  have hgen : ∀ counts : ℕ → ℕ, counts 8 ≤ 100 →
      previewFindSlot prC7 counts 8 = some 8 := by
    intro counts hc
    rw [previewFindSlot.eq_def]
    rw [if_neg (by norm_num [prC7]), if_pos]
    refine ⟨by norm_num [prC7], ?_⟩
    have hq : ((counts 8 : ℚ)) ≤ 100 := by exact_mod_cast hc
    norm_num [prC7]
    nlinarith
  have hent : previewEntries prC7 stC7 =
      [⟨1, 1, 8⟩, ⟨2, 2, 8⟩, ⟨3, 3, 8⟩, ⟨4, 4, 8⟩, ⟨5, 5, 8⟩, ⟨6, 6, 8⟩] := by
    unfold previewEntries
    rw [hov]
    rw [show prC7.today = 8 from rfl]
    simp only [previewLoop]
    rw [hgen _ (by norm_num [initialCounts, countOnDate, stC7, prC7])]
    simp only
    rw [hgen _ (by norm_num [initialCounts, countOnDate, stC7, prC7])]
    simp only
    rw [hgen _ (by norm_num [initialCounts, countOnDate, stC7, prC7])]
    simp only
    rw [hgen _ (by norm_num [initialCounts, countOnDate, stC7, prC7])]
    simp only
    rw [hgen _ (by norm_num [initialCounts, countOnDate, stC7, prC7])]
    simp only
    rw [hgen _ (by norm_num [initialCounts, countOnDate, stC7, prC7])]
  constructor
  · norm_num [previewEndpoint, hov, hent]
  · rfl

end Editaliza
